import Mathlib

/-!
Shallow embedding of the chess engine in `Chess/ChessEngine.py`.

A board cell is the pair of its two characters: `('w','K')` is the white
king, `('-','-')` the empty cell.  Coordinates are `Int` (Python integers),
and indexing follows Python list semantics: an index `i` with `0 ≤ i < n`
reads position `i`, an index with `-n ≤ i < 0` reads position `n + i`, and
any other index raises `IndexError`.  Fallible evaluation is modelled with
`Option`: `none` is an uncaught Python exception.
-/

namespace ChessEngine

abbrev Cell := Char × Char

def emptyCell : Cell := ('-', '-')

abbrev Board := List (List Cell)

/-- Python list read `l[i]` (negative indices wrap, out of range raises). -/
def pyIdx (n : Nat) (i : Int) : Option Nat :=
  if 0 ≤ i ∧ i < (n : Int) then some i.toNat
  else if -(n : Int) ≤ i ∧ i < 0 then some ((n : Int) + i).toNat
  else none

def pyGet (l : List α) (i : Int) : Option α := do
  let j ← pyIdx l.length i
  l.get? j

/-- Python list write `l[i] = v`. -/
def pySet (l : List α) (i : Int) (v : α) : Option (List α) := do
  let j ← pyIdx l.length i
  pure (l.set j v)

/-- `self.board[r][c]` -/
def getCell (b : Board) (r c : Int) : Option Cell := do
  let row ← pyGet b r
  pyGet row c

/-- `self.board[r][c] = v` -/
def setCell (b : Board) (r c : Int) (v : Cell) : Option Board := do
  let row ← pyGet b r
  let row' ← pySet row c v
  pySet b r row'

/-- The `Move` record of `Move.__init__`: origin, destination, the piece
that stood at the origin and the piece that stood at the destination.
`moveID` is derived below rather than stored; the constructor always
computes it from the four coordinates. -/
structure Move where
  startRow : Int
  startCol : Int
  endRow : Int
  endCol : Int
  pieceMoved : Cell
  pieceCaptured : Cell
deriving DecidableEq, Repr

/-- `self.moveID = self.startRow * 1000 + self.startCol * 100 + self.endRow * 10 + self.endCol` -/
def Move.moveID (m : Move) : Int :=
  m.startRow * 1000 + m.startCol * 100 + m.endRow * 10 + m.endCol

/-- `Move.__eq__`: equality by `moveID` alone. -/
def moveEq (a b : Move) : Bool := a.moveID == b.moveID

/-- `Move((r,c),(er,ec), board)`: reads the two cells of the live board. -/
def mkMove (startSq endSq : Int × Int) (board : Board) : Option Move := do
  let pm ← getCell board startSq.1 startSq.2
  let pc ← getCell board endSq.1 endSq.2
  pure ⟨startSq.1, startSq.2, endSq.1, endSq.2, pm, pc⟩

/-- The mutable fields of `GameState`. -/
structure GameState where
  board : Board
  whiteToMove : Bool
  moveLog : List Move
  whiteKingLocation : Int × Int
  blackKingLocation : Int × Int
  checkMate : Bool
  staleMate : Bool
deriving DecidableEq, Repr

/-- The starting board of `GameState.__init__`. -/
def initialBoard : Board :=
  [ [('b','R'), ('b','N'), ('b','B'), ('b','Q'), ('b','K'), ('b','B'), ('b','N'), ('b','R')],
    [('b','p'), ('b','p'), ('b','p'), ('b','p'), ('b','p'), ('b','p'), ('b','p'), ('b','p')],
    [('-','-'), ('-','-'), ('-','-'), ('-','-'), ('-','-'), ('-','-'), ('-','-'), ('-','-')],
    [('-','-'), ('-','-'), ('-','-'), ('-','-'), ('-','-'), ('-','-'), ('-','-'), ('-','-')],
    [('-','-'), ('-','-'), ('-','-'), ('-','-'), ('-','-'), ('-','-'), ('-','-'), ('-','-')],
    [('-','-'), ('-','-'), ('-','-'), ('-','-'), ('-','-'), ('-','-'), ('-','-'), ('-','-')],
    [('w','p'), ('w','p'), ('w','p'), ('w','p'), ('w','p'), ('w','p'), ('w','p'), ('w','p')],
    [('w','R'), ('w','N'), ('w','B'), ('w','Q'), ('w','K'), ('w','B'), ('w','N'), ('w','R')] ]

/-- `GameState.__init__`. -/
def newGame : GameState :=
  { board := initialBoard
    whiteToMove := true
    moveLog := []
    whiteKingLocation := (7, 4)
    blackKingLocation := (0, 4)
    checkMate := false
    staleMate := false }

/-- `GameState.makeMove`.  Note the king-cache update condition compares the
single character `move.pieceMoved[1]` with the two-character strings `'wK'`
and `'bK'`, exactly as the source does. -/
def makeMove (st : GameState) (move : Move) : Option GameState := do
  let b1 ← setCell st.board move.startRow move.startCol emptyCell
  let b2 ← setCell b1 move.endRow move.endCol move.pieceMoved
  let st1 : GameState :=
    { st with
        board := b2
        moveLog := st.moveLog ++ [move]
        whiteToMove := !st.whiteToMove }
  if String.mk [move.pieceMoved.2] = "wK" then
    pure { st1 with whiteKingLocation := (move.endRow, move.endCol) }
  else if String.mk [move.pieceMoved.2] = "bK" then
    pure { st1 with blackKingLocation := (move.endRow, move.endCol) }
  else
    pure st1

/-- `GameState.undoMove`. -/
def undoMove (st : GameState) : Option GameState :=
  match st.moveLog.getLast? with
  | none => some st
  | some move => do
      let b1 ← setCell st.board move.startRow move.startCol move.pieceMoved
      let b2 ← setCell b1 move.endRow move.endCol move.pieceCaptured
      let st1 : GameState :=
        { st with
            board := b2
            moveLog := st.moveLog.dropLast
            whiteToMove := !st.whiteToMove }
      if String.mk [move.pieceMoved.2] = "wK" then
        pure { st1 with whiteKingLocation := (move.startRow, move.startCol) }
      else if String.mk [move.pieceMoved.2] = "bK" then
        pure { st1 with blackKingLocation := (move.startRow, move.startCol) }
      else
        pure st1

/-- `GameState.getPawnmoves`. -/
def getPawnmoves (st : GameState) (r c : Int) (moves : List Move) :
    Option (List Move) := do
  if st.whiteToMove then
    let one ← getCell st.board (r - 1) c
    let moves ← (
      if one = emptyCell then do
        let m ← mkMove (r, c) (r - 1, c) st.board
        let moves := moves ++ [m]
        if r = 6 then do
          let two ← getCell st.board (r - 2) c
          if two = emptyCell then do
            let m2 ← mkMove (r, c) (r - 2, c) st.board
            pure (moves ++ [m2])
          else pure moves
        else pure moves
      else pure moves : Option (List Move))
    let moves ← (
      if c - 1 ≥ 0 then do
        let dl ← getCell st.board (r - 1) (c - 1)
        if dl.1 = 'b' then do
          let m ← mkMove (r, c) (r - 1, c - 1) st.board
          pure (moves ++ [m])
        else pure moves
      else pure moves : Option (List Move))
    if c + 1 ≤ 7 then do
      let dr ← getCell st.board (r - 1) (c + 1)
      if dr.1 = 'b' then do
        let m ← mkMove (r, c) (r - 1, c + 1) st.board
        pure (moves ++ [m])
      else pure moves
    else pure moves
  else
    let one ← getCell st.board (r + 1) c
    let moves ← (
      if one = emptyCell then do
        let m ← mkMove (r, c) (r + 1, c) st.board
        let moves := moves ++ [m]
        if r = 1 then do
          let two ← getCell st.board (r + 2) c
          if two = emptyCell then do
            let m2 ← mkMove (r, c) (r + 2, c) st.board
            pure (moves ++ [m2])
          else pure moves
        else pure moves
      else pure moves : Option (List Move))
    let moves ← (
      if c - 1 ≥ 0 then do
        let dl ← getCell st.board (r + 1) (c - 1)
        if dl.1 = 'w' then do
          let m ← mkMove (r, c) (r + 1, c - 1) st.board
          pure (moves ++ [m])
        else pure moves
      else pure moves : Option (List Move))
    if c + 1 ≤ 7 then do
      let dr ← getCell st.board (r + 1) (c + 1)
      if dr.1 = 'w' then do
        let m ← mkMove (r, c) (r + 1, c + 1) st.board
        pure (moves ++ [m])
      else pure moves
    else pure moves

/-- One ray of the `for i in range(1,8)` loop shared by
`getRookmoves` and `getBishopmoves`; `steps` is the list of remaining
values of `i`. -/
def slideLoop (board : Board) (enemyColor : Char) (r c : Int) (d : Int × Int) :
    List Int → List Move → Option (List Move)
  | [], moves => some moves
  | i :: rest, moves =>
      let endrow := r + d.1 * i
      let endcol := c + d.2 * i
      if 0 ≤ endrow ∧ endrow < 8 ∧ 0 ≤ endcol ∧ endcol < 8 then do
        let endpiece ← getCell board endrow endcol
        if endpiece = emptyCell then do
          let m ← mkMove (r, c) (endrow, endcol) board
          slideLoop board enemyColor r c d rest (moves ++ [m])
        else if endpiece.1 = enemyColor then do
          let m ← mkMove (r, c) (endrow, endcol) board
          pure (moves ++ [m])
        else pure moves
      else pure moves

/-- The `for d in directions` loop of the sliding-piece generators. -/
def slideDirs (board : Board) (enemyColor : Char) (r c : Int) :
    List (Int × Int) → List Move → Option (List Move)
  | [], moves => some moves
  | d :: ds, moves => do
      let moves ← slideLoop board enemyColor r c d [1, 2, 3, 4, 5, 6, 7] moves
      slideDirs board enemyColor r c ds moves

/-- `GameState.getRookmoves`. -/
def getRookmoves (st : GameState) (r c : Int) (moves : List Move) :
    Option (List Move) :=
  slideDirs st.board (if st.whiteToMove then 'b' else 'w') r c
    [(-1, 0), (0, -1), (1, 0), (0, 1)] moves

/-- `GameState.getBishopmoves`. -/
def getBishopmoves (st : GameState) (r c : Int) (moves : List Move) :
    Option (List Move) :=
  slideDirs st.board (if st.whiteToMove then 'b' else 'w') r c
    [(-1, -1), (-1, 1), (1, -1), (1, 1)] moves

/-- `GameState.getQueenmoves`: rook rays then bishop rays. -/
def getQueenmoves (st : GameState) (r c : Int) (moves : List Move) :
    Option (List Move) := do
  let moves ← getRookmoves st r c moves
  getBishopmoves st r c moves

/-- The fixed-offset loop shared by `getKnightmoves` and `getKingmoves`. -/
def stepLoop (board : Board) (allyColor : Char) (r c : Int) :
    List (Int × Int) → List Move → Option (List Move)
  | [], moves => some moves
  | off :: rest, moves =>
      let endrow := r + off.1
      let endcol := c + off.2
      if 0 ≤ endrow ∧ endrow < 8 ∧ 0 ≤ endcol ∧ endcol < 8 then do
        let endpiece ← getCell board endrow endcol
        if endpiece.1 ≠ allyColor then do
          let m ← mkMove (r, c) (endrow, endcol) board
          stepLoop board allyColor r c rest (moves ++ [m])
        else stepLoop board allyColor r c rest moves
      else stepLoop board allyColor r c rest moves

/-- `GameState.getKnightmoves`. -/
def getKnightmoves (st : GameState) (r c : Int) (moves : List Move) :
    Option (List Move) :=
  stepLoop st.board (if st.whiteToMove then 'w' else 'b') r c
    [(-2, -1), (-2, 1), (-1, -2), (-1, 2), (1, -2), (1, 2), (2, -1), (2, 1)] moves

/-- `GameState.getKingmoves`. -/
def getKingmoves (st : GameState) (r c : Int) (moves : List Move) :
    Option (List Move) :=
  stepLoop st.board (if st.whiteToMove then 'w' else 'b') r c
    [(-1, -1), (-1, 0), (-1, 1), (0, -1), (0, 1), (1, -1), (1, 0), (1, 1)] moves

/-- The `self.moveFunctions` dictionary dispatch; an unknown key is a
`KeyError`. -/
def moveFunctions (st : GameState) (piece : Char) (r c : Int)
    (moves : List Move) : Option (List Move) :=
  if piece = 'p' then getPawnmoves st r c moves
  else if piece = 'R' then getRookmoves st r c moves
  else if piece = 'N' then getKnightmoves st r c moves
  else if piece = 'B' then getBishopmoves st r c moves
  else if piece = 'Q' then getQueenmoves st r c moves
  else if piece = 'K' then getKingmoves st r c moves
  else none

/-- The doubly nested cell scan of `getAllPossibleMoves`, iterating the
listed `(r, c)` pairs in order. -/
def cellsLoop (st : GameState) : List (Nat × Nat) → List Move → Option (List Move)
  | [], moves => some moves
  | (r, c) :: rest, moves => do
      let cell ← getCell st.board (r : Int) (c : Int)
      let turn := cell.1
      if (turn = 'w' ∧ st.whiteToMove) ∨ (turn = 'b' ∧ ¬ st.whiteToMove) then do
        let moves ← moveFunctions st cell.2 (r : Int) (c : Int) moves
        cellsLoop st rest moves
      else cellsLoop st rest moves

/-- `for r in range(len(self.board)): for c in range(len(self.board[r]))`. -/
def allCells (b : Board) : List (Nat × Nat) :=
  (List.range b.length).flatMap fun r =>
    (List.range (b.getD r []).length).map fun c => (r, c)

/-- `GameState.getAllPossibleMoves`. -/
def getAllPossibleMoves (st : GameState) : Option (List Move) :=
  cellsLoop st (allCells st.board) []

/-- `GameState.squareUnderAttack`: flips the turn, generates the opponent's
pseudo-legal moves, flips back, and tests the destinations.  Returns the
state as well because the method mutates `whiteToMove` and restores it. -/
def squareUnderAttack (st : GameState) (r c : Int) :
    Option (Bool × GameState) := do
  let stFlip : GameState := { st with whiteToMove := !st.whiteToMove }
  let oppMoves ← getAllPossibleMoves stFlip
  let stBack : GameState := { stFlip with whiteToMove := !stFlip.whiteToMove }
  pure (oppMoves.any (fun m => m.endRow == r && m.endCol == c), stBack)

/-- `GameState.inCheck`: the cached king square of the side to move. -/
def inCheck (st : GameState) : Option (Bool × GameState) :=
  if st.whiteToMove then
    squareUnderAttack st st.whiteKingLocation.1 st.whiteKingLocation.2
  else
    squareUnderAttack st st.blackKingLocation.1 st.blackKingLocation.2

/-- Python `list.remove(x)`: removes the first element equal (by
`Move.__eq__`) to `x`; raises `ValueError` when none is. -/
def listRemove (x : Move) : List Move → Option (List Move)
  | [] => none
  | y :: ys =>
      if moveEq y x then some ys
      else do pure (y :: (← listRemove x ys))

/-- The `for i in range(len(moves)-1, -1, -1)` filtering loop of
`getValidMoves`; the `Nat` argument is one more than the next index `i`. -/
def validLoop : GameState → List Move → Nat → Option (List Move × GameState)
  | st, moves, 0 => some (moves, st)
  | st, moves, i + 1 => do
      let m ← moves.get? i
      let st1 ← makeMove st m
      let st2 : GameState := { st1 with whiteToMove := !st1.whiteToMove }
      let (chk, st3) ← inCheck st2
      let moves ← if chk then listRemove m moves else some moves
      let st4 : GameState := { st3 with whiteToMove := !st3.whiteToMove }
      let st5 ← undoMove st4
      validLoop st5 moves i

/-- `GameState.getValidMoves`. -/
def getValidMoves (st : GameState) : Option (List Move × GameState) := do
  let moves ← getAllPossibleMoves st
  let (moves, st) ← validLoop st moves moves.length
  if moves.length = 0 then do
    let (chk, st) ← inCheck st
    if chk then pure (moves, { st with checkMate := true })
    else pure (moves, { st with staleMate := true })
  else
    pure (moves, { st with checkMate := false, staleMate := false })

/-! Glue used to state concrete facts: playing explicit move records and
certifying legal play. -/

/-- Construct `Move((a),(b), self.board)` from the live board and apply it
with `makeMove` — one engine ply. -/
def play (s : GameState) (a b : Int × Int) : Option GameState := do
  let m ← mkMove a b s.board
  makeMove s m

/-- A sequence of `play` steps. -/
def playLine (s : GameState) : List ((Int × Int) × (Int × Int)) → Option GameState
  | [] => some s
  | p :: ps => do playLine (← play s p.1 p.2) ps

/-- Certificate of one ply of legal play: succeeds only when the move from
`a` to `b` is among the engine's pseudo-legal moves for the side to move and,
after applying it, the mover's king — located by scanning the post-move board,
not from the cached king square — is not attacked by any opponent pseudo-legal
move derived from the post-move board. -/
def legalStep (s : GameState) (a b : Int × Int) : Option GameState := do
  let m ← mkMove a b s.board
  let pseudo ← getAllPossibleMoves s
  let s' ← makeMove s m
  let kingsq ← (allCells s'.board).find? fun rc =>
    getCell s'.board rc.1 rc.2 == some (if s.whiteToMove then ('w','K') else ('b','K'))
  let opp ← getAllPossibleMoves s'
  if m ∈ pseudo ∧
      ¬ (opp.any fun mm => mm.endRow == (kingsq.1 : Int) && mm.endCol == (kingsq.2 : Int)) then
    pure s'
  else none

/-- A sequence of certified-legal plies from a state. -/
def legalLine (s : GameState) : List ((Int × Int) × (Int × Int)) → Option GameState
  | [] => some s
  | p :: ps => do legalLine (← legalStep s p.1 p.2) ps

/-- 1.e4 e5 (white pawn e2–e4, black pawn e7–e5). -/
def c1line : List ((Int × Int) × (Int × Int)) :=
  [((6,4),(4,4)), ((1,4),(3,4))]

/-- 1.e4 d6 2.Bb5+ (white pawn e2–e4, black pawn d7–d6, white bishop f1–b5,
giving check along b5–c6–d7–e8). -/
def c2line : List ((Int × Int) × (Int × Int)) :=
  [((6,4),(4,4)), ((1,3),(2,3)), ((7,5),(3,1))]

/-- Legal play marching the black h-pawn to the back rank (no promotion is
implemented, so it stays a pawn): white shuffles the b1-knight while black
plays h7–h5, h5–h4, h4–h3, h3xg2, g2xh1 (capturing the rook on h1). -/
def c4line : List ((Int × Int) × (Int × Int)) :=
  [((7,1),(5,2)), ((1,7),(3,7)), ((5,2),(7,1)), ((3,7),(4,7)), ((7,1),(5,2)),
   ((4,7),(5,7)), ((5,2),(7,1)), ((5,7),(6,6)), ((7,1),(5,2)), ((6,6),(7,7))]

/-- Move records (applied unconditionally by `makeMove`, which performs no
validity check) sculpting a position in which black, to move, has every
pseudo-legal move filtered away while not being in check: black keeps only
Ke8, Nd8, Bf8 and pawns d7, e7, f7; white adds Ra8, Rh8, Qe6, Ba4, Bh5. -/
def c6line : List ((Int × Int) × (Int × Int)) :=
  [((7,0),(0,0)), ((0,1),(0,3)), ((7,7),(0,6)), ((1,0),(1,1)), ((0,6),(0,7)),
   ((1,1),(1,2)), ((7,3),(0,2)), ((1,2),(1,6)), ((0,2),(2,4)), ((1,6),(1,7)),
   ((7,5),(4,0)), ((1,7),(1,3)), ((7,2),(3,7))]

/-- The physical (wrapped) `Nat` indices that a pair of Python indices
denotes on a board, when in range. -/
def physIdx (b : Board) (r c : Int) : Option (Nat × Nat) := do
  let pr ← pyIdx b.length r
  let row ← b.get? pr
  let pc ← pyIdx row.length c
  pure (pr, pc)

/-- Writing one cell of a board at physical indices. -/
def upd (b : Board) (i j : Nat) (v : Cell) : Board :=
  b.set i ((b.getD i []).set j v)

/-- A properly-shaped 8×8 board. -/
def WF (b : Board) : Prop := b.length = 8 ∧ ∀ row ∈ b, row.length = 8

/-- The move record is consistent with the board it is to be applied to:
its recorded pieces are what the board holds at its origin and destination
(as any record built by `mkMove` from that board is). -/
def MoveOK (bd : Board) (m : Move) : Prop :=
  getCell bd m.startRow m.startCol = some m.pieceMoved ∧
  getCell bd m.endRow m.endCol = some m.pieceCaptured

/-- An 8×8 board holding only the two kings, used for cheap concrete
witnesses. -/
def sparseBoard : Board :=
  [ [('-','-'), ('-','-'), ('-','-'), ('-','-'), ('b','K'), ('-','-'), ('-','-'), ('-','-')],
    [('-','-'), ('-','-'), ('-','-'), ('-','-'), ('-','-'), ('-','-'), ('-','-'), ('-','-')],
    [('-','-'), ('-','-'), ('-','-'), ('-','-'), ('-','-'), ('-','-'), ('-','-'), ('-','-')],
    [('-','-'), ('-','-'), ('-','-'), ('-','-'), ('-','-'), ('-','-'), ('-','-'), ('-','-')],
    [('-','-'), ('-','-'), ('-','-'), ('-','-'), ('-','-'), ('-','-'), ('-','-'), ('-','-')],
    [('-','-'), ('-','-'), ('-','-'), ('-','-'), ('-','-'), ('-','-'), ('-','-'), ('-','-')],
    [('-','-'), ('-','-'), ('-','-'), ('-','-'), ('-','-'), ('-','-'), ('-','-'), ('-','-')],
    [('-','-'), ('-','-'), ('-','-'), ('-','-'), ('w','K'), ('-','-'), ('-','-'), ('-','-')] ]

/-- A two-king state with correct caches and cleared flags. -/
def sparseGame : GameState :=
  { board := sparseBoard
    whiteToMove := true
    moveLog := []
    whiteKingLocation := (7, 4)
    blackKingLocation := (0, 4)
    checkMate := false
    staleMate := false }

/-- The result of `getValidMoves` on `sparseGame`. -/
def sparsePair : List Move × GameState :=
  (getValidMoves sparseGame).getD ([], sparseGame)

/-- A coordinate pair that denotes a cell of the 8×8 board. -/
def inBoard (r c : Int) : Prop := 0 ≤ r ∧ r < 8 ∧ 0 ≤ c ∧ c < 8

/-- Some move of the list has the given destination square. -/
def offersTo (out : List Move) (er ec : Int) : Prop :=
  ∃ m ∈ out, m.endRow = er ∧ m.endCol = ec

/-- The cell at `(r, c)` exists on the board and holds a piece of the given
color — the reading of "the diagonal target cell holds a piece of the
opposite color". -/
def enemyTargetCell (b : Board) (r c : Int) (color : Char) : Prop :=
  inBoard r c ∧ ∃ w, getCell b r c = some w ∧ w.1 = color

/-- A board whose only pieces are a white pawn on the last rank (row 0,
column 0) and a black rook at row 7, column 1. -/
def c7board : Board :=
  [ [('w','p'), ('-','-'), ('-','-'), ('-','-'), ('-','-'), ('-','-'), ('-','-'), ('-','-')],
    [('-','-'), ('-','-'), ('-','-'), ('-','-'), ('-','-'), ('-','-'), ('-','-'), ('-','-')],
    [('-','-'), ('-','-'), ('-','-'), ('-','-'), ('-','-'), ('-','-'), ('-','-'), ('-','-')],
    [('-','-'), ('-','-'), ('-','-'), ('-','-'), ('-','-'), ('-','-'), ('-','-'), ('-','-')],
    [('-','-'), ('-','-'), ('-','-'), ('-','-'), ('-','-'), ('-','-'), ('-','-'), ('-','-')],
    [('-','-'), ('-','-'), ('-','-'), ('-','-'), ('-','-'), ('-','-'), ('-','-'), ('-','-')],
    [('-','-'), ('-','-'), ('-','-'), ('-','-'), ('-','-'), ('-','-'), ('-','-'), ('-','-')],
    [('-','-'), ('b','R'), ('-','-'), ('-','-'), ('-','-'), ('-','-'), ('-','-'), ('-','-')] ]

/-- A state putting `c7board` to use, white to move. -/
def c7state : GameState :=
  { board := c7board
    whiteToMove := true
    moveLog := []
    whiteKingLocation := (7, 4)
    blackKingLocation := (0, 4)
    checkMate := false
    staleMate := false }

/-- The list `[a, a+1, ..., a+n-1]` of remaining loop indices, used to
reason about the `range(1,8)` ray loop by induction. -/
def stepsList : Int → Nat → List Int
  | _, 0 => []
  | a, n + 1 => a :: stepsList (a + 1) n

/-- The ray-generation contract of the sliding-piece generators over a set
of directions: every produced move lies on some ray at a step whose strictly
earlier steps are all empty and whose own cell is empty or enemy-colored
(never beyond the first occupied square, and that square only if enemy); and
conversely the first occupied square of a ray is offered whenever it is
enemy-colored. -/
def rayGenSpec (bd : Board) (e : Char) (r c : Int) (dirs : List (Int × Int))
    (out : List Move) : Prop :=
  (∀ m ∈ out, ∃ d ∈ dirs, ∃ k : Int, 1 ≤ k ∧ k ≤ 7 ∧
      m.endRow = r + d.1 * k ∧ m.endCol = c + d.2 * k ∧
      inBoard (r + d.1 * k) (c + d.2 * k) ∧
      (∀ j : Int, 1 ≤ j → j < k →
        getCell bd (r + d.1 * j) (c + d.2 * j) = some emptyCell) ∧
      (getCell bd (r + d.1 * k) (c + d.2 * k) = some emptyCell ∨
        ∃ w, getCell bd (r + d.1 * k) (c + d.2 * k) = some w ∧ w.1 = e)) ∧
  (∀ d ∈ dirs, ∀ k : Int, 1 ≤ k → k ≤ 7 → inBoard (r + d.1 * k) (c + d.2 * k) →
      (∀ j : Int, 1 ≤ j → j < k →
        getCell bd (r + d.1 * j) (c + d.2 * j) = some emptyCell) →
      ∀ w, getCell bd (r + d.1 * k) (c + d.2 * k) = some w → w ≠ emptyCell →
        w.1 = e → offersTo out (r + d.1 * k) (c + d.2 * k))

/-- A white-pawn single step forward. -/
def isWhitePawnSingle (m : Move) : Bool :=
  m.pieceMoved == ('w','p') && m.endRow == m.startRow - 1 && m.endCol == m.startCol

/-- A white-pawn double step forward. -/
def isWhitePawnDouble (m : Move) : Bool :=
  m.pieceMoved == ('w','p') && m.endRow == m.startRow - 2 && m.endCol == m.startCol

/-- A white-knight move. -/
def isWhiteKnightMove (m : Move) : Bool :=
  m.pieceMoved == ('w','N')

end ChessEngine

namespace ChessEngine

set_option maxRecDepth 100000
set_option synthInstance.maxSize 1000

/-! Python-indexing and board-update lemmas. -/

theorem obind_some {α β : Type} {o : Option α} {a : α} (h : o = some a)
    (f : α → Option β) : (o >>= f) = f a := by
  subst h
  rfl

theorem obind_none {α β : Type} {o : Option α} (h : o = none)
    (f : α → Option β) : (o >>= f) = none := by
  subst h
  rfl

theorem obind_pure {α β : Type} (a : α) (f : α → Option β) : (some a >>= f) = f a := rfl

theorem pyIdx_lt {n : Nat} {i : Int} {j : Nat} (h : pyIdx n i = some j) : j < n := by
  unfold pyIdx at h
  split at h
  · simp only [Option.some.injEq] at h
    omega
  · split at h
    · simp only [Option.some.injEq] at h
      omega
    · exact absurd h (by simp)

theorem pyGet_of_idx {l : List α} {i : Int} {j : Nat} (h : pyIdx l.length i = some j) :
    pyGet l i = l.get? j := by
  unfold pyGet
  rw [obind_some h]

theorem pyGet_none {l : List α} {i : Int} (h : pyIdx l.length i = none) :
    pyGet l i = none := by
  unfold pyGet
  rw [obind_none h]

theorem pySet_of_idx {l : List α} {i : Int} {j : Nat} (v : α)
    (h : pyIdx l.length i = some j) : pySet l i v = some (l.set j v) := by
  unfold pySet
  rw [obind_some h]
  rfl

theorem length_upd (b : Board) (i j : Nat) (v : Cell) :
    (upd b i j v).length = b.length :=
  List.length_set ..

theorem getD_row {b : Board} {i : Nat} {row : List Cell} (h : b.get? i = some row) :
    b.getD i [] = row := by
  rw [List.getD_eq_getElem?_getD, ← List.get?_eq_getElem?, h]
  rfl

theorem getCell_some_physIdx {b : Board} {r c : Int} {w : Cell}
    (h : getCell b r c = some w) :
    ∃ i j row, physIdx b r c = some (i, j) ∧ b.get? i = some row ∧
      row.get? j = some w ∧ i < b.length ∧ j < row.length := by
  unfold getCell at h
  cases hpr : pyIdx b.length r with
  | none =>
    rw [obind_none (pyGet_none hpr)] at h
    exact absurd h (by simp)
  | some i =>
    cases hrow : b.get? i with
    | none =>
      rw [obind_none ((pyGet_of_idx hpr).trans hrow)] at h
      exact absurd h (by simp)
    | some row =>
      simp only [obind_some ((pyGet_of_idx hpr).trans hrow)] at h
      cases hpc : pyIdx row.length c with
      | none =>
        rw [pyGet_none hpc] at h
        exact absurd h (by simp)
      | some j =>
        rw [pyGet_of_idx hpc] at h
        refine ⟨i, j, row, ?_, hrow, h, pyIdx_lt hpr, pyIdx_lt hpc⟩
        unfold physIdx
        simp only [obind_some hpr, obind_some hrow, obind_some hpc]
        rfl

theorem physIdx_some {b : Board} {r c : Int} {i j : Nat}
    (h : physIdx b r c = some (i, j)) :
    pyIdx b.length r = some i ∧
      ∃ row, b.get? i = some row ∧ pyIdx row.length c = some j := by
  unfold physIdx at h
  cases hpr : pyIdx b.length r with
  | none =>
    rw [obind_none hpr] at h
    exact absurd h (by simp)
  | some i' =>
    simp only [obind_some hpr] at h
    cases hrow : b.get? i' with
    | none =>
      rw [obind_none hrow] at h
      exact absurd h (by simp)
    | some row =>
      simp only [obind_some hrow] at h
      cases hpc : pyIdx row.length c with
      | none =>
        rw [obind_none hpc] at h
        exact absurd h (by simp)
      | some j' =>
        simp only [obind_some hpc, Option.pure_def, Option.some.injEq,
          Prod.mk.injEq] at h
        obtain ⟨rfl, rfl⟩ := h
        exact ⟨rfl, row, hrow, hpc⟩

theorem setCell_of_physIdx {b : Board} {r c : Int} {i j : Nat}
    (h : physIdx b r c = some (i, j)) (v : Cell) :
    setCell b r c v = some (upd b i j v) := by
  obtain ⟨hpr, row, hrow, hpc⟩ := physIdx_some h
  unfold setCell
  simp only [obind_some ((pyGet_of_idx hpr).trans hrow),
    obind_some (pySet_of_idx v hpc)]
  rw [pySet_of_idx _ hpr]
  unfold upd
  rw [getD_row hrow]

theorem physIdx_upd (b : Board) (i j : Nat) (v : Cell) (r c : Int) :
    physIdx (upd b i j v) r c = physIdx b r c := by
  have hlen : (upd b i j v).length = b.length := length_upd ..
  unfold physIdx
  rw [hlen]
  cases hpr : pyIdx b.length r with
  | none => rfl
  | some p =>
    simp only [obind_pure]
    by_cases hpi : p = i
    · subst hpi
      by_cases hib : p < b.length
      · have h1 : (upd b p j v).get? p = some ((b.getD p []).set j v) := by
          unfold upd
          rw [List.get?_eq_getElem?, List.getElem?_set_self (by simpa using hib)]
        have h2 : b.get? p = some (b.getD p []) := by
          rw [List.get?_eq_getElem?, List.getD_eq_getElem?_getD]
          cases hx : b[p]? with
          | none =>
            rw [List.getElem?_eq_none_iff] at hx
            omega
          | some rr => rfl
        simp only [obind_some h1, obind_some h2, List.length_set]
      · have h1 : (upd b p j v).get? p = none := by
          rw [List.get?_eq_getElem?, List.getElem?_eq_none_iff, length_upd]
          omega
        have h2 : b.get? p = none := by
          rw [List.get?_eq_getElem?, List.getElem?_eq_none_iff]
          omega
        rw [obind_none h1, obind_none h2]
    · have h1 : (upd b i j v).get? p = b.get? p := by
        unfold upd
        rw [List.get?_eq_getElem?, List.get?_eq_getElem?,
          List.getElem?_set_ne (fun h => hpi h.symm)]
      rw [h1]

theorem upd_upd_same {b : Board} {i j : Nat} (hi : i < b.length) (v w : Cell) :
    upd (upd b i j v) i j w = upd b i j w := by
  unfold upd
  have hrow : (b.set i ((b.getD i []).set j v)).getD i [] = (b.getD i []).set j v := by
    rw [List.getD_eq_getElem?_getD, List.getElem?_set_self (by simpa using hi)]
    rfl
  rw [hrow, List.set_set, List.set_set]

theorem list_set_self {l : List α} {j : Nat} {w : α} (h : l.get? j = some w) :
    l.set j w = l := by
  apply List.ext_getElem?
  intro n
  rw [List.getElem?_set]
  split
  · next hjn =>
    subst hjn
    rw [List.get?_eq_getElem?] at h
    rw [if_pos (by rw [List.getElem?_eq_some] at h; exact h.1)]
    exact h.symm
  · rfl

theorem upd_self {b : Board} {i j : Nat} {row : List Cell} {w : Cell}
    (hrow : b.get? i = some row) (hget : row.get? j = some w) :
    upd b i j w = b := by
  unfold upd
  rw [getD_row hrow, list_set_self hget, list_set_self hrow]

theorem upd_comm {b : Board} {i1 j1 i2 j2 : Nat} (v w : Cell)
    (hi1 : i1 < b.length) (hne : (i1, j1) ≠ (i2, j2)) :
    upd (upd b i1 j1 v) i2 j2 w = upd (upd b i2 j2 w) i1 j1 v := by
  by_cases hii : i1 = i2
  · subst hii
    have hjj : j1 ≠ j2 := by
      intro h
      exact hne (by rw [h])
    unfold upd
    have h1 : (b.set i1 ((b.getD i1 []).set j1 v)).getD i1 [] = (b.getD i1 []).set j1 v := by
      rw [List.getD_eq_getElem?_getD, List.getElem?_set_self (by simpa using hi1)]
      rfl
    have h2 : (b.set i1 ((b.getD i1 []).set j2 w)).getD i1 [] = (b.getD i1 []).set j2 w := by
      rw [List.getD_eq_getElem?_getD, List.getElem?_set_self (by simpa using hi1)]
      rfl
    rw [h1, h2, List.set_set, List.set_set, List.set_comm _ _ _ hjj]
  · unfold upd
    have h1 : (b.set i1 ((b.getD i1 []).set j1 v)).getD i2 [] = b.getD i2 [] := by
      rw [List.getD_eq_getElem?_getD, List.getElem?_set_ne hii, List.getD_eq_getElem?_getD]
    have h2 : (b.set i2 ((b.getD i2 []).set j2 w)).getD i1 [] = b.getD i1 [] := by
      rw [List.getD_eq_getElem?_getD, List.getElem?_set_ne (Ne.symm hii), List.getD_eq_getElem?_getD]
    rw [h1, h2, List.set_comm _ _ _ hii]

theorem mk_single_ne_wK (ch : Char) : String.mk [ch] ≠ "wK" := by
  intro h
  have h2 : ([ch] : List Char) = ['w', 'K'] := congrArg String.data h
  simp at h2

theorem mk_single_ne_bK (ch : Char) : String.mk [ch] ≠ "bK" := by
  intro h
  have h2 : ([ch] : List Char) = ['b', 'K'] := congrArg String.data h
  simp at h2

/-- `makeMove` on a board-consistent move record never fails and never
touches the king caches or the terminal flags. -/
theorem makeMove_eq {s : GameState} {m : Move} {i1 j1 i2 j2 : Nat}
    (hp1 : physIdx s.board m.startRow m.startCol = some (i1, j1))
    (hp2 : physIdx s.board m.endRow m.endCol = some (i2, j2)) :
    makeMove s m = some
      { s with board := upd (upd s.board i1 j1 emptyCell) i2 j2 m.pieceMoved,
               moveLog := s.moveLog ++ [m],
               whiteToMove := !s.whiteToMove } := by
  unfold makeMove
  simp only [obind_some (setCell_of_physIdx hp1 emptyCell)]
  simp only [obind_some (setCell_of_physIdx
    ((physIdx_upd s.board i1 j1 emptyCell m.endRow m.endCol).trans hp2) m.pieceMoved)]
  rw [if_neg (mk_single_ne_wK _), if_neg (mk_single_ne_bK _)]
  rfl

/-- Applying a board-consistent move and then undoing it restores the whole
state: `undoMove` exactly inverts `makeMove`. -/
theorem makeMove_undo {s : GameState} {m : Move}
    (h1 : getCell s.board m.startRow m.startCol = some m.pieceMoved)
    (h2 : getCell s.board m.endRow m.endCol = some m.pieceCaptured) :
    ∃ s1, makeMove s m = some s1 ∧ undoMove s1 = some s := by
  obtain ⟨i1, j1, row1, hp1, hrow1, hget1, hi1, hj1⟩ := getCell_some_physIdx h1
  obtain ⟨i2, j2, row2, hp2, hrow2, hget2, hi2, hj2⟩ := getCell_some_physIdx h2
  refine ⟨_, makeMove_eq hp1 hp2, ?_⟩
  have hi2' : i2 < (upd s.board i1 j1 emptyCell).length := by
    rw [length_upd]
    exact hi2
  set B2 := upd (upd s.board i1 j1 emptyCell) i2 j2 m.pieceMoved with hB2def
  have hphys3 : physIdx B2 m.startRow m.startCol = some (i1, j1) := by
    rw [hB2def, physIdx_upd, physIdx_upd]
    exact hp1
  set B3 := upd B2 i1 j1 m.pieceMoved with hB3def
  have hphys4 : physIdx B3 m.endRow m.endCol = some (i2, j2) := by
    rw [hB3def, hB2def, physIdx_upd, physIdx_upd, physIdx_upd]
    exact hp2
  have hB4_eq : upd B3 i2 j2 m.pieceCaptured = s.board := by
    rw [hB3def, hB2def]
    by_cases hsame : ((i1, j1) : Nat × Nat) = (i2, j2)
    · have hii : i1 = i2 := congrArg Prod.fst hsame
      have hjj : j1 = j2 := congrArg Prod.snd hsame
      subst hii
      subst hjj
      have hr12 : row1 = row2 := by
        rw [hrow1] at hrow2
        exact Option.some.inj hrow2
      subst hr12
      have hmm : m.pieceCaptured = m.pieceMoved :=
        (Option.some.inj (hget1.symm.trans hget2)).symm
      rw [upd_upd_same hi1, upd_upd_same hi1, upd_upd_same hi1, hmm]
      exact upd_self hrow1 hget1
    · rw [upd_comm _ _ hi2' (Ne.symm hsame), upd_upd_same hi1,
        upd_upd_same (by rw [length_upd]; exact hi2),
        upd_self hrow1 hget1, upd_self hrow2 hget2]
  unfold undoMove
  simp only [List.getLast?_concat]
  simp only [obind_some (setCell_of_physIdx hphys3 m.pieceMoved)]
  simp only [obind_some (setCell_of_physIdx hphys4 m.pieceCaptured)]
  rw [if_neg (mk_single_ne_wK _), if_neg (mk_single_ne_bK _)]
  rw [hB4_eq, List.dropLast_concat, Bool.not_not]
  rfl

/-- C1.  The claim fails on the code: `makeMove` performs the first four
claimed effects, but never updates the cached king location, because the
source compares the one-character piece kind `move.pieceMoved[1]` with the
two-character string `'wK'` (resp. `'bK'`), which is always false.  Concrete
run: after legal play 1.e4 e5, the white king move e1–e2 is pseudo-legal and
legal; applying it empties the origin, puts the king on the destination,
pushes the move, flips the turn — yet `whiteKingLocation` stays `(7,4)`
instead of becoming the destination `(6,4)`. -/
theorem claim_C1_king_cache_never_updated :
    (do
      let s2 ← legalLine newGame c1line
      let m ← mkMove (7,4) (6,4) s2.board
      let s3 ← legalStep s2 (7,4) (6,4)
      pure (m.pieceMoved, getCell s3.board 7 4, getCell s3.board 6 4,
            s3.moveLog == s2.moveLog ++ [m], s3.whiteToMove == !s2.whiteToMove,
            s3.whiteKingLocation, s3.blackKingLocation))
    = some (('w','K'), some emptyCell, some ('w','K'), true, true, (7,4), (0,4)) := by
  decide

/-- C2.  The claim fails on the code: in the position after legal play
1.e4 d6 2.Bb5+ (a reachable position), `getValidMoves` for black returns the
king move e8–d7 even though after applying it the black king on d7 is
attacked by a white pseudo-legal move (the b5 bishop) on the post-apply
board.  The filter misses it because `inCheck` consults the stale cached
king square (never updated, see C1), which the king no longer occupies. -/
theorem claim_C2_legality_filter_misses_king_moves :
    (do
      let s3 ← legalLine newGame c2line
      let m ← mkMove (0,4) (1,3) s3.board
      let (valid, _) ← getValidMoves s3
      let s4 ← makeMove s3 m
      let opp ← getAllPossibleMoves s4
      pure (decide (m ∈ valid), getCell s4.board 1 3, s4.whiteToMove,
            opp.any fun mm => mm.endRow == 1 && mm.endCol == 3))
    = some (true, some ('b','K'), true, true) := by
  decide

/-- C4.  The claim fails on the code: in the reachable position where legal
play has marched the black h-pawn to h1 (promotion being unimplemented, it
remains a pawn on the last rank), the pawn generator evaluates
`self.board[r+1][c]` with `r = 7`, i.e. reads row index 8, raising
`IndexError`: black's `getAllPossibleMoves` fails, and so does white's
`getValidMoves`, which reaches that generator through
`inCheck`/`squareUnderAttack`. -/
theorem claim_C4_pawn_generator_escapes_board :
    (do
      let s ← legalLine newGame c4line
      pure (getCell s.board 7 7,
            getAllPossibleMoves { s with whiteToMove := false },
            getValidMoves s))
    = some (some ('b','p'), none, none) := by
  decide

/-- C5.  In the standard starting position with white to move,
`getValidMoves` returns exactly 20 moves: 8 single-step white pawn moves,
8 double-step white pawn moves, and 4 white knight moves. -/
theorem claim_C5_initial_position_twenty_moves :
    (getValidMoves newGame).map
      (fun p => (p.1.length, p.1.countP isWhitePawnSingle,
                 p.1.countP isWhitePawnDouble, p.1.countP isWhiteKnightMove))
    = some (20, 8, 8, 4) := by
  decide

/-- C6 counterexample.  The final sentence of the claim is false: the two
terminal flags can be simultaneously true.  Engine operations only: the
`c6line` records reach a position where black has no surviving move and is
not in check, so `getValidMoves` sets `staleMate := true` (leaving
`checkMate` untouched); two further `makeMove` calls (a null record d8–d8 and
white knight g1–c7, delivering an uncapturable knight check) reach a position
where black has no surviving move and is in check, so the next
`getValidMoves` sets `checkMate := true` while `staleMate` retains its value:
both flags end up true. -/
theorem claim_C6_counterexample_both_flags_true :
    (do
      let s13 ← playLine newGame c6line
      let (mv1, s14) ← getValidMoves s13
      let s16 ← playLine s14 [((0,3),(0,3)), ((7,6),(1,2))]
      let (mv2, s17) ← getValidMoves s16
      pure (mv1.length, s14.checkMate, s14.staleMate,
            mv2.length, s17.checkMate, s17.staleMate))
    = some (0, false, true, 0, true, true) := by
  decide

/-- C9.  Two `Move` records whose coordinates all lie in 0..7 compare equal
under `Move.__eq__` (which compares the derived `moveID` fields) exactly when
their origin and destination coordinates match; the pieces moved and captured
play no part. -/
theorem claim_C9_move_equality_by_coordinates (m1 m2 : Move)
    (h1 : 0 ≤ m1.startRow ∧ m1.startRow ≤ 7) (h2 : 0 ≤ m1.startCol ∧ m1.startCol ≤ 7)
    (h3 : 0 ≤ m1.endRow ∧ m1.endRow ≤ 7) (h4 : 0 ≤ m1.endCol ∧ m1.endCol ≤ 7)
    (h5 : 0 ≤ m2.startRow ∧ m2.startRow ≤ 7) (h6 : 0 ≤ m2.startCol ∧ m2.startCol ≤ 7)
    (h7 : 0 ≤ m2.endRow ∧ m2.endRow ≤ 7) (h8 : 0 ≤ m2.endCol ∧ m2.endCol ≤ 7) :
    moveEq m1 m2 = true ↔
      m1.startRow = m2.startRow ∧ m1.startCol = m2.startCol ∧
      m1.endRow = m2.endRow ∧ m1.endCol = m2.endCol := by
  unfold moveEq Move.moveID
  rw [beq_iff_eq]
  omega

/-- C3.  For every game state and every move applicable in it — a move
whose recorded pieces are what the board holds at its origin and destination,
as every record the engine constructs from the live board is —
`makeMove` followed immediately by `undoMove` restores the board grid, the
turn flag, and both cached king locations to their exact prior values. -/
theorem claim_C3_make_then_undo_restores (s : GameState) (m : Move)
    (h1 : getCell s.board m.startRow m.startCol = some m.pieceMoved)
    (h2 : getCell s.board m.endRow m.endCol = some m.pieceCaptured) :
    ∃ s1 s2, makeMove s m = some s1 ∧ undoMove s1 = some s2 ∧
      s2.board = s.board ∧ s2.whiteToMove = s.whiteToMove ∧
      s2.whiteKingLocation = s.whiteKingLocation ∧
      s2.blackKingLocation = s.blackKingLocation := by
  obtain ⟨s1, hmk, hun⟩ := makeMove_undo h1 h2
  exact ⟨s1, s, hmk, hun, rfl, rfl, rfl, rfl⟩

/-- Witness for C3 at a concrete input: the double pawn step e2–e4 in the
starting position. -/
theorem claim_C3_witness :
    getCell newGame.board (6 : Int) (4 : Int) = some ('w','p') ∧
    getCell newGame.board (4 : Int) (4 : Int) = some ('-','-') ∧
    ∃ s1 s2, makeMove newGame ⟨6, 4, 4, 4, ('w','p'), ('-','-')⟩ = some s1 ∧
      undoMove s1 = some s2 ∧
      s2.board = newGame.board ∧ s2.whiteToMove = newGame.whiteToMove ∧
      s2.whiteKingLocation = newGame.whiteKingLocation ∧
      s2.blackKingLocation = newGame.blackKingLocation :=
  ⟨by decide, by decide,
    claim_C3_make_then_undo_restores newGame ⟨6, 4, 4, 4, ('w','p'), ('-','-')⟩
      (by decide) (by decide)⟩

/-- Witness for C9 at a concrete input: two records with equal coordinates
but different pieces. -/
theorem claim_C9_witness :
    moveEq ⟨0, 1, 2, 3, ('w','p'), ('-','-')⟩ ⟨0, 1, 2, 3, ('b','Q'), ('w','R')⟩ = true ↔
      (0 : Int) = 0 ∧ (1 : Int) = 1 ∧ (2 : Int) = 2 ∧ (3 : Int) = 3 := by
  exact claim_C9_move_equality_by_coordinates
    ⟨0, 1, 2, 3, ('w','p'), ('-','-')⟩ ⟨0, 1, 2, 3, ('b','Q'), ('w','R')⟩
    (by decide) (by decide) (by decide) (by decide)
    (by decide) (by decide) (by decide) (by decide)

/-! Every move the generators produce is consistent with the board it was
generated from: every appended record comes from `mkMove` on that board. -/

theorem obind_eq_some {α β : Type} {o : Option α} {f : α → Option β} {b : β}
    (h : (o >>= f) = some b) : ∃ a, o = some a ∧ f a = some b := by
  cases o with
  | none => exact Option.noConfusion h
  | some a => exact ⟨a, rfl, h⟩

theorem mkMove_MoveOK {a b : Int × Int} {bd : Board} {m : Move}
    (h : mkMove a b bd = some m) : MoveOK bd m := by
  unfold mkMove at h
  obtain ⟨pm, hpm, h⟩ := obind_eq_some h
  obtain ⟨pc, hpc, h⟩ := obind_eq_some h
  simp only [Option.pure_def, Option.some.injEq] at h
  subst h
  exact ⟨hpm, hpc⟩

theorem MoveOK_append {bd : Board} {acc : List Move} {m : Move}
    (hacc : ∀ x ∈ acc, MoveOK bd x) (hm : MoveOK bd m) :
    ∀ x ∈ acc ++ [m], MoveOK bd x := by
  intro x hx
  rcases List.mem_append.mp hx with hx | hx
  · exact hacc x hx
  · rw [List.mem_singleton] at hx
    subst hx
    exact hm

theorem slideLoop_MoveOK {bd : Board} {e : Char} {r c : Int} {d : Int × Int} :
    ∀ {steps : List Int} {acc out : List Move},
      (∀ m ∈ acc, MoveOK bd m) → slideLoop bd e r c d steps acc = some out →
      ∀ m ∈ out, MoveOK bd m := by
  intro steps
  induction steps with
  | nil =>
    intro acc out hacc h
    simp only [slideLoop, Option.some.injEq] at h
    subst h
    exact hacc
  | cons i rest ih =>
    intro acc out hacc h
    simp only [slideLoop] at h
    split at h
    · obtain ⟨ep, hep, h⟩ := obind_eq_some h
      split at h
      · obtain ⟨m1, hm1, h⟩ := obind_eq_some h
        exact ih (MoveOK_append hacc (mkMove_MoveOK hm1)) h
      · split at h
        · obtain ⟨m1, hm1, h⟩ := obind_eq_some h
          simp only [Option.pure_def, Option.some.injEq] at h
          subst h
          exact MoveOK_append hacc (mkMove_MoveOK hm1)
        · simp only [Option.pure_def, Option.some.injEq] at h
          subst h
          exact hacc
    · simp only [Option.pure_def, Option.some.injEq] at h
      subst h
      exact hacc

theorem slideDirs_MoveOK {bd : Board} {e : Char} {r c : Int} :
    ∀ {dirs : List (Int × Int)} {acc out : List Move},
      (∀ m ∈ acc, MoveOK bd m) → slideDirs bd e r c dirs acc = some out →
      ∀ m ∈ out, MoveOK bd m := by
  intro dirs
  induction dirs with
  | nil =>
    intro acc out hacc h
    simp only [slideDirs, Option.some.injEq] at h
    subst h
    exact hacc
  | cons d ds ih =>
    intro acc out hacc h
    simp only [slideDirs] at h
    obtain ⟨acc2, hsl, h⟩ := obind_eq_some h
    exact ih (slideLoop_MoveOK hacc hsl) h

theorem stepLoop_MoveOK {bd : Board} {a : Char} {r c : Int} :
    ∀ {offs : List (Int × Int)} {acc out : List Move},
      (∀ m ∈ acc, MoveOK bd m) → stepLoop bd a r c offs acc = some out →
      ∀ m ∈ out, MoveOK bd m := by
  intro offs
  induction offs with
  | nil =>
    intro acc out hacc h
    simp only [stepLoop, Option.some.injEq] at h
    subst h
    exact hacc
  | cons off rest ih =>
    intro acc out hacc h
    simp only [stepLoop] at h
    split at h
    · obtain ⟨ep, hep, h⟩ := obind_eq_some h
      split at h
      · obtain ⟨m1, hm1, h⟩ := obind_eq_some h
        exact ih (MoveOK_append hacc (mkMove_MoveOK hm1)) h
      · exact ih hacc h
    · exact ih hacc h

theorem getPawnmoves_MoveOK {st : GameState} {r c : Int} {acc out : List Move}
    (hacc : ∀ m ∈ acc, MoveOK st.board m)
    (h : getPawnmoves st r c acc = some out) : ∀ m ∈ out, MoveOK st.board m := by
  unfold getPawnmoves at h
  split at h <;>
  · obtain ⟨one, hone, h⟩ := obind_eq_some h
    obtain ⟨moves1, hs1, h⟩ := obind_eq_some h
    have hm1 : ∀ m ∈ moves1, MoveOK st.board m := by
      split at hs1
      · obtain ⟨m1, hmk1, hs1⟩ := obind_eq_some hs1
        have hacc2 := MoveOK_append hacc (mkMove_MoveOK hmk1)
        split at hs1
        · obtain ⟨two, htwo, hs1⟩ := obind_eq_some hs1
          split at hs1
          · obtain ⟨m2, hmk2, hs1⟩ := obind_eq_some hs1
            simp only [Option.pure_def, Option.some.injEq] at hs1
            subst hs1
            exact MoveOK_append hacc2 (mkMove_MoveOK hmk2)
          · simp only [Option.pure_def, Option.some.injEq] at hs1
            subst hs1
            exact hacc2
        · simp only [Option.pure_def, Option.some.injEq] at hs1
          subst hs1
          exact hacc2
      · simp only [Option.pure_def, Option.some.injEq] at hs1
        subst hs1
        exact hacc
    obtain ⟨moves2, hs2, h⟩ := obind_eq_some h
    have hm2 : ∀ m ∈ moves2, MoveOK st.board m := by
      split at hs2
      · obtain ⟨dl, hdl, hs2⟩ := obind_eq_some hs2
        split at hs2
        · obtain ⟨m3, hmk3, hs2⟩ := obind_eq_some hs2
          simp only [Option.pure_def, Option.some.injEq] at hs2
          subst hs2
          exact MoveOK_append hm1 (mkMove_MoveOK hmk3)
        · simp only [Option.pure_def, Option.some.injEq] at hs2
          subst hs2
          exact hm1
      · simp only [Option.pure_def, Option.some.injEq] at hs2
        subst hs2
        exact hm1
    split at h
    · obtain ⟨dr, hdr, h⟩ := obind_eq_some h
      split at h
      · obtain ⟨m4, hmk4, h⟩ := obind_eq_some h
        simp only [Option.pure_def, Option.some.injEq] at h
        subst h
        exact MoveOK_append hm2 (mkMove_MoveOK hmk4)
      · simp only [Option.pure_def, Option.some.injEq] at h
        subst h
        exact hm2
    · simp only [Option.pure_def, Option.some.injEq] at h
      subst h
      exact hm2

theorem getRookmoves_MoveOK {st : GameState} {r c : Int} {acc out : List Move}
    (hacc : ∀ m ∈ acc, MoveOK st.board m)
    (h : getRookmoves st r c acc = some out) : ∀ m ∈ out, MoveOK st.board m :=
  slideDirs_MoveOK hacc h

theorem getBishopmoves_MoveOK {st : GameState} {r c : Int} {acc out : List Move}
    (hacc : ∀ m ∈ acc, MoveOK st.board m)
    (h : getBishopmoves st r c acc = some out) : ∀ m ∈ out, MoveOK st.board m :=
  slideDirs_MoveOK hacc h

theorem getQueenmoves_MoveOK {st : GameState} {r c : Int} {acc out : List Move}
    (hacc : ∀ m ∈ acc, MoveOK st.board m)
    (h : getQueenmoves st r c acc = some out) : ∀ m ∈ out, MoveOK st.board m := by
  unfold getQueenmoves at h
  obtain ⟨acc2, h1, h2⟩ := obind_eq_some h
  exact getBishopmoves_MoveOK (getRookmoves_MoveOK hacc h1) h2

theorem getKnightmoves_MoveOK {st : GameState} {r c : Int} {acc out : List Move}
    (hacc : ∀ m ∈ acc, MoveOK st.board m)
    (h : getKnightmoves st r c acc = some out) : ∀ m ∈ out, MoveOK st.board m :=
  stepLoop_MoveOK hacc h

theorem getKingmoves_MoveOK {st : GameState} {r c : Int} {acc out : List Move}
    (hacc : ∀ m ∈ acc, MoveOK st.board m)
    (h : getKingmoves st r c acc = some out) : ∀ m ∈ out, MoveOK st.board m :=
  stepLoop_MoveOK hacc h

theorem moveFunctions_MoveOK {st : GameState} {p : Char} {r c : Int}
    {acc out : List Move} (hacc : ∀ m ∈ acc, MoveOK st.board m)
    (h : moveFunctions st p r c acc = some out) : ∀ m ∈ out, MoveOK st.board m := by
  unfold moveFunctions at h
  split at h
  · exact getPawnmoves_MoveOK hacc h
  · split at h
    · exact getRookmoves_MoveOK hacc h
    · split at h
      · exact getKnightmoves_MoveOK hacc h
      · split at h
        · exact getBishopmoves_MoveOK hacc h
        · split at h
          · exact getQueenmoves_MoveOK hacc h
          · split at h
            · exact getKingmoves_MoveOK hacc h
            · exact Option.noConfusion h

theorem cellsLoop_MoveOK {st : GameState} :
    ∀ {cells : List (Nat × Nat)} {acc out : List Move},
      (∀ m ∈ acc, MoveOK st.board m) → cellsLoop st cells acc = some out →
      ∀ m ∈ out, MoveOK st.board m := by
  intro cells
  induction cells with
  | nil =>
    intro acc out hacc h
    simp only [cellsLoop, Option.some.injEq] at h
    subst h
    exact hacc
  | cons p rest ih =>
    intro acc out hacc h
    obtain ⟨r, c⟩ := p
    simp only [cellsLoop] at h
    obtain ⟨cell, hcell, h⟩ := obind_eq_some h
    split at h
    · obtain ⟨acc2, hmf, h⟩ := obind_eq_some h
      exact ih (moveFunctions_MoveOK hacc hmf) h
    · exact ih hacc h

theorem getAllPossibleMoves_MoveOK {st : GameState} {out : List Move}
    (h : getAllPossibleMoves st = some out) : ∀ m ∈ out, MoveOK st.board m :=
  cellsLoop_MoveOK (fun m hm => absurd hm (List.not_mem_nil m)) h

/-! State restoration through the legality filter. -/

theorem listRemove_subset {x : Move} :
    ∀ {l l' : List Move}, listRemove x l = some l' → l' ⊆ l := by
  intro l
  induction l with
  | nil => intro l' h; exact Option.noConfusion h
  | cons y ys ih =>
    intro l' h
    simp only [listRemove] at h
    split at h
    · simp only [Option.some.injEq] at h
      subst h
      exact List.subset_cons_self y ys
    · obtain ⟨ys', hys', h⟩ := obind_eq_some h
      simp only [Option.pure_def, Option.some.injEq] at h
      subst h
      exact List.cons_subset_cons y (ih hys')

theorem flip_flip (s : GameState) :
    ({ { s with whiteToMove := !s.whiteToMove } with
        whiteToMove := !(!s.whiteToMove) } : GameState) = s := by
  cases s
  simp [Bool.not_not]

theorem inCheck_state {st : GameState} {p : Bool × GameState}
    (h : inCheck st = some p) : p.2 = st := by
  unfold inCheck squareUnderAttack at h
  split at h <;>
  · obtain ⟨opp, hopp, h⟩ := obind_eq_some h
    simp only [Option.pure_def, Option.some.injEq] at h
    subst h
    exact flip_flip st

theorem validLoop_restores :
    ∀ (n : Nat) (s : GameState) (moves moves' : List Move) (t : GameState),
      (∀ m ∈ moves, MoveOK s.board m) → validLoop s moves n = some (moves', t) →
      t = s ∧ moves' ⊆ moves := by
  intro n
  induction n with
  | zero =>
    intro s moves moves' t hOK h
    simp only [validLoop, Option.some.injEq, Prod.mk.injEq] at h
    obtain ⟨rfl, rfl⟩ := h
    exact ⟨rfl, List.Subset.refl _⟩
  | succ i ih =>
    intro s moves moves' t hOK h
    simp only [validLoop] at h
    obtain ⟨m, hm, h⟩ := obind_eq_some h
    have hmem : m ∈ moves := List.get?_mem hm
    obtain ⟨hok1, hok2⟩ := hOK m hmem
    obtain ⟨s1, hmk, hun⟩ := makeMove_undo hok1 hok2
    simp only [obind_some hmk] at h
    obtain ⟨⟨chk, st3⟩, hic, h⟩ := obind_eq_some h
    dsimp only at h
    have hst3 : st3 = { s1 with whiteToMove := !s1.whiteToMove } :=
      inCheck_state hic
    have hst4 : ({ st3 with whiteToMove := !st3.whiteToMove } : GameState) = s1 := by
      rw [hst3]
      cases s1
      simp [Bool.not_not]
    split at h
    · obtain ⟨moves2, hrm, h⟩ := obind_eq_some h
      obtain ⟨st5, hst5, h⟩ := obind_eq_some h
      rw [hst4, hun] at hst5
      obtain rfl := Option.some.inj hst5
      obtain ⟨ht, hsub⟩ := ih s moves2 moves' t
        (fun x hx => hOK x (listRemove_subset hrm hx)) h
      exact ⟨ht, hsub.trans (listRemove_subset hrm)⟩
    · obtain ⟨moves2, hrm, h⟩ := obind_eq_some h
      obtain rfl := Option.some.inj hrm
      obtain ⟨st5, hst5, h⟩ := obind_eq_some h
      rw [hst4, hun] at hst5
      obtain rfl := Option.some.inj hst5
      exact ih s moves moves' t hOK h


/-- C10.  Every completed call to `getValidMoves` restores the board grid,
the turn flag, both cached king locations, and the move history to their
values at entry; only the two terminal flags may change.  Each filter
iteration applies a generated (hence board-consistent) move and exactly
undoes it, and the attack probes only flip the turn flag back and forth. -/
theorem claim_C10_getValidMoves_frame (s : GameState) (ms : List Move)
    (s' : GameState) (h : getValidMoves s = some (ms, s')) :
    s'.board = s.board ∧ s'.whiteToMove = s.whiteToMove ∧
    s'.whiteKingLocation = s.whiteKingLocation ∧
    s'.blackKingLocation = s.blackKingLocation ∧ s'.moveLog = s.moveLog := by
  unfold getValidMoves at h
  obtain ⟨mvs, hall, h1⟩ := obind_eq_some h
  clear h
  obtain ⟨⟨mvs1, t⟩, hvl, h2⟩ := obind_eq_some h1
  clear h1
  dsimp only at h2
  obtain ⟨ht, -⟩ := validLoop_restores _ s mvs mvs1 t
    (getAllPossibleMoves_MoveOK hall) hvl
  subst ht
  split at h2
  · obtain ⟨⟨chk, t2⟩, hic, h3⟩ := obind_eq_some h2
    clear h2
    dsimp only at h3
    have ht2 : t2 = t := inCheck_state hic
    subst ht2
    split at h3 <;>
    · simp only [Option.pure_def, Option.some.injEq, Prod.mk.injEq] at h3
      obtain ⟨rfl, rfl⟩ := h3
      exact ⟨rfl, rfl, rfl, rfl, rfl⟩
  · simp only [Option.pure_def, Option.some.injEq, Prod.mk.injEq] at h2
    obtain ⟨rfl, rfl⟩ := h2
    exact ⟨rfl, rfl, rfl, rfl, rfl⟩

/-- Witness for C10 at a concrete input: the two-king state. -/
theorem claim_C10_witness :
    getValidMoves sparseGame = some (sparsePair.1, sparsePair.2) ∧
    (sparsePair.2.board = sparseGame.board ∧
     sparsePair.2.whiteToMove = sparseGame.whiteToMove ∧
     sparsePair.2.whiteKingLocation = sparseGame.whiteKingLocation ∧
     sparsePair.2.blackKingLocation = sparseGame.blackKingLocation ∧
     sparsePair.2.moveLog = sparseGame.moveLog) :=
  ⟨by decide,
   claim_C10_getValidMoves_frame sparseGame sparsePair.1 sparsePair.2 (by decide)⟩

/-- C6 as amended.  For a call of `getValidMoves` that starts with both
terminal flags false: if the returned list is empty then checkmate is set
exactly when the side to move is in check and stalemate is set otherwise, so
exactly one flag is true; if the returned list is non-empty then both flags
are false.  (Without the both-false precondition the branches leave the
other flag stale — see the counterexample.) -/
theorem claim_C6_flag_discipline (s : GameState) (ms : List Move)
    (s' : GameState) (hc : s.checkMate = false) (hs : s.staleMate = false)
    (h : getValidMoves s = some (ms, s')) :
    (ms = [] → ∃ chk, inCheck s = some (chk, s) ∧
        s'.checkMate = chk ∧ s'.staleMate = !chk) ∧
    (ms ≠ [] → s'.checkMate = false ∧ s'.staleMate = false) := by
  unfold getValidMoves at h
  obtain ⟨mvs, hall, h1⟩ := obind_eq_some h
  clear h
  obtain ⟨⟨mvs1, t⟩, hvl, h2⟩ := obind_eq_some h1
  clear h1
  dsimp only at h2
  obtain ⟨ht, -⟩ := validLoop_restores _ s mvs mvs1 t
    (getAllPossibleMoves_MoveOK hall) hvl
  subst ht
  split at h2
  · rename_i hlen
    obtain ⟨⟨chk, t2⟩, hic, h3⟩ := obind_eq_some h2
    clear h2
    dsimp only at h3
    have ht2 : t2 = t := inCheck_state hic
    subst ht2
    split at h3
    · rename_i hchk
      simp only [Option.pure_def, Option.some.injEq, Prod.mk.injEq] at h3
      obtain ⟨rfl, rfl⟩ := h3
      refine ⟨fun _ => ⟨chk, hic, ?_, ?_⟩, fun hne => ?_⟩
      · simp [hchk]
      · simp [hchk, hs]
      · exact absurd (List.length_eq_zero.mp hlen) hne
    · rename_i hchk
      simp only [Option.pure_def, Option.some.injEq, Prod.mk.injEq] at h3
      obtain ⟨rfl, rfl⟩ := h3
      refine ⟨fun _ => ⟨chk, hic, ?_, ?_⟩, fun hne => ?_⟩
      · simp only [Bool.not_eq_true] at hchk
        simp [hchk, hc]
      · simp only [Bool.not_eq_true] at hchk
        simp [hchk]
      · exact absurd (List.length_eq_zero.mp hlen) hne
  · rename_i hlen
    simp only [Option.pure_def, Option.some.injEq, Prod.mk.injEq] at h2
    obtain ⟨rfl, rfl⟩ := h2
    refine ⟨fun hempty => ?_, fun _ => ⟨rfl, rfl⟩⟩
    exact absurd (by rw [hempty]; rfl) hlen

/-- Witness for the amended C6 at a concrete input: the two-king state,
where the returned list is non-empty and both flags end false. -/
theorem claim_C6_flag_discipline_witness :
    sparseGame.checkMate = false ∧ sparseGame.staleMate = false ∧
    getValidMoves sparseGame = some (sparsePair.1, sparsePair.2) ∧
    ((sparsePair.1 = [] → ∃ chk, inCheck sparseGame = some (chk, sparseGame) ∧
        sparsePair.2.checkMate = chk ∧ sparsePair.2.staleMate = !chk) ∧
     (sparsePair.1 ≠ [] →
        sparsePair.2.checkMate = false ∧ sparsePair.2.staleMate = false)) :=
  ⟨rfl, rfl, by decide,
   claim_C6_flag_discipline sparseGame sparsePair.1 sparsePair.2 rfl rfl (by decide)⟩


/-! Pawn-generator characterization. -/

theorem mkMove_fields {a b : Int × Int} {bd : Board} {m : Move}
    (h : mkMove a b bd = some m) :
    m.startRow = a.1 ∧ m.startCol = a.2 ∧ m.endRow = b.1 ∧ m.endCol = b.2 := by
  unfold mkMove at h
  obtain ⟨pm, hpm, h⟩ := obind_eq_some h
  obtain ⟨pc, hpc, h⟩ := obind_eq_some h
  simp only [Option.pure_def, Option.some.injEq] at h
  subst h
  exact ⟨rfl, rfl, rfl, rfl⟩

theorem offersTo_nil {er ec : Int} : offersTo [] er ec ↔ False := by
  simp [offersTo]

theorem offersTo_append {l1 l2 : List Move} {er ec : Int} :
    offersTo (l1 ++ l2) er ec ↔ offersTo l1 er ec ∨ offersTo l2 er ec := by
  unfold offersTo
  constructor
  · rintro ⟨m, hm, h⟩
    rcases List.mem_append.mp hm with hm | hm
    · exact Or.inl ⟨m, hm, h⟩
    · exact Or.inr ⟨m, hm, h⟩
  · rintro (⟨m, hm, h⟩ | ⟨m, hm, h⟩)
    · exact ⟨m, List.mem_append.mpr (Or.inl hm), h⟩
    · exact ⟨m, List.mem_append.mpr (Or.inr hm), h⟩

theorem offersTo_single {m : Move} {er ec : Int} :
    offersTo [m] er ec ↔ m.endRow = er ∧ m.endCol = ec := by
  simp [offersTo]

theorem getCell_total {b : Board} (hWF : WF b) {r c : Int}
    (hr0 : 0 ≤ r) (hr : r < 8) (hc0 : 0 ≤ c) (hc : c < 8) :
    ∃ w, getCell b r c = some w := by
  obtain ⟨hlen, hrows⟩ := hWF
  have hprc : 0 ≤ r ∧ r < (b.length : Int) := by
    rw [hlen]
    exact ⟨hr0, by omega⟩
  have hpr : pyIdx b.length r = some r.toNat := by
    unfold pyIdx
    rw [if_pos hprc]
  have hrn : r.toNat < b.length := by omega
  have hrowx : ∃ row, b.get? r.toNat = some row := by
    cases hx : b.get? r.toNat with
    | none =>
      rw [List.get?_eq_getElem?, List.getElem?_eq_none_iff] at hx
      omega
    | some row => exact ⟨row, rfl⟩
  obtain ⟨row, hrow⟩ := hrowx
  have hrl : row.length = 8 := hrows row (List.get?_mem hrow)
  have hpcc : 0 ≤ c ∧ c < (row.length : Int) := by
    rw [hrl]
    exact ⟨hc0, by omega⟩
  have hpc : pyIdx row.length c = some c.toNat := by
    unfold pyIdx
    rw [if_pos hpcc]
  have hcn : c.toNat < row.length := by omega
  cases hx : row.get? c.toNat with
  | none =>
    rw [List.get?_eq_getElem?, List.getElem?_eq_none_iff] at hx
    omega
  | some w =>
    refine ⟨w, ?_⟩
    unfold getCell
    simp only [obind_some ((pyGet_of_idx hpr).trans hrow)]
    rw [pyGet_of_idx hpc, hx]

/-- C7 counterexample.  The claim as stated fails for a pawn standing on the
last rank (reachable, since promotion is unimplemented): for the white pawn
at (0,0) of `c7state`, the generator offers a "diagonal" move to row −1
(Python wraps the read `board[-1][1]` to row 7 and finds the black rook),
although no diagonal target cell exists on the board, so the offered-iff-
enemy-target biconditional is violated. -/
theorem claim_C7_counterexample :
    ¬ (∀ out, getPawnmoves c7state 0 0 [] = some out →
        (offersTo out (0 - 1) (0 + 1) ↔
          enemyTargetCell c7state.board (0 - 1) (0 + 1) 'b')) := by
  intro hcl
  have h := hcl
    [⟨0, 0, -1, 0, ('w','p'), ('-','-')⟩, ⟨0, 0, -1, 1, ('w','p'), ('b','R')⟩]
    (by decide)
  have hoff : offersTo
      [⟨0, 0, -1, 0, ('w','p'), ('-','-')⟩, ⟨0, 0, -1, 1, ('w','p'), ('b','R')⟩]
      (0 - 1) (0 + 1) := by
    unfold offersTo
    decide
  have htgt := (h.mp hoff).1.1
  exact absurd htgt (by decide)

/-- C7 as amended.  For every well-shaped board and every pawn square not on
the pawn's last rank (white rows 1..7, black rows 0..6; the excluded
last-rank pawns are the counterexample), the pawn generator offers the
double step exactly when the pawn is on its starting rank (row 6 white,
row 1 black) and both intermediate and target cells are empty, and offers a
diagonal move exactly when the diagonal target cell exists and holds a piece
of the opposite color. -/
theorem claim_C7_pawn_move_conditions (s : GameState) (r c : Int)
    (hWF : WF s.board) (hc0 : 0 ≤ c) (hc7 : c ≤ 7) :
    (s.whiteToMove = true → 1 ≤ r → r ≤ 7 →
      ∀ out, getPawnmoves s r c [] = some out →
        ((offersTo out (r - 2) c ↔
           (r = 6 ∧ getCell s.board (r - 1) c = some emptyCell ∧
             getCell s.board (r - 2) c = some emptyCell)) ∧
         (∀ dc : Int, dc = -1 ∨ dc = 1 →
           (offersTo out (r - 1) (c + dc) ↔
             enemyTargetCell s.board (r - 1) (c + dc) 'b')))) ∧
    (s.whiteToMove = false → 0 ≤ r → r ≤ 6 →
      ∀ out, getPawnmoves s r c [] = some out →
        ((offersTo out (r + 2) c ↔
           (r = 1 ∧ getCell s.board (r + 1) c = some emptyCell ∧
             getCell s.board (r + 2) c = some emptyCell)) ∧
         (∀ dc : Int, dc = -1 ∨ dc = 1 →
           (offersTo out (r + 1) (c + dc) ↔
             enemyTargetCell s.board (r + 1) (c + dc) 'w')))) := by
  constructor
  · intro hw hr1 hr7 out hout
    unfold getPawnmoves at hout
    split at hout
    case isFalse hwf => exact absurd hw hwf
    case isTrue hwt =>
      obtain ⟨one, hone, hout⟩ := obind_eq_some hout
      obtain ⟨moves1, hs1, hout⟩ := obind_eq_some hout
      obtain ⟨moves2, hs2, hout⟩ := obind_eq_some hout
      have L1 : ∀ er ec : Int, offersTo moves1 er ec ↔
          ((er = r - 1 ∧ ec = c ∧ one = emptyCell) ∨
           (er = r - 2 ∧ ec = c ∧ one = emptyCell ∧ r = 6 ∧
             getCell s.board (r - 2) c = some emptyCell)) := by
        intro er ec
        split at hs1
        · rename_i hone1
          obtain ⟨m1, hmk1, hs1⟩ := obind_eq_some hs1
          obtain ⟨f1, f2, f3, f4⟩ := mkMove_fields hmk1
          split at hs1
          · rename_i hr6
            obtain ⟨two, htwo, hs1⟩ := obind_eq_some hs1
            split at hs1
            · rename_i htwo1
              obtain ⟨m2, hmk2, hs1⟩ := obind_eq_some hs1
              obtain ⟨g1, g2, g3, g4⟩ := mkMove_fields hmk2
              simp only [Option.pure_def, Option.some.injEq] at hs1
              subst hs1
              rw [htwo1] at htwo
              rw [offersTo_append, offersTo_append, offersTo_nil,
                offersTo_single, offersTo_single, f3, f4, g3, g4]
              constructor
              · rintro ((hF | ⟨h1, h2⟩) | ⟨h1, h2⟩)
                · exact hF.elim
                · exact Or.inl ⟨h1.symm, h2.symm, hone1⟩
                · exact Or.inr ⟨h1.symm, h2.symm, hone1, hr6, htwo⟩
              · rintro (⟨h1, h2, h3⟩ | ⟨h1, h2, h3, h4, h5⟩)
                · exact Or.inl (Or.inr ⟨h1.symm, h2.symm⟩)
                · exact Or.inr ⟨h1.symm, h2.symm⟩
            · rename_i htwo1
              simp only [Option.pure_def, Option.some.injEq] at hs1
              subst hs1
              rw [offersTo_append, offersTo_nil, offersTo_single, f3, f4]
              constructor
              · rintro (hF | ⟨h1, h2⟩)
                · exact hF.elim
                · exact Or.inl ⟨h1.symm, h2.symm, hone1⟩
              · rintro (⟨h1, h2, h3⟩ | ⟨h1, h2, h3, h4, hcell⟩)
                · exact Or.inr ⟨h1.symm, h2.symm⟩
                · rw [htwo] at hcell
                  exact absurd (Option.some.inj hcell) htwo1
          · rename_i hr6
            simp only [Option.pure_def, Option.some.injEq] at hs1
            subst hs1
            rw [offersTo_append, offersTo_nil, offersTo_single, f3, f4]
            constructor
            · rintro (hF | ⟨h1, h2⟩)
              · exact hF.elim
              · exact Or.inl ⟨h1.symm, h2.symm, hone1⟩
            · rintro (⟨h1, h2, h3⟩ | ⟨h1, h2, h3, hr6x, h5⟩)
              · exact Or.inr ⟨h1.symm, h2.symm⟩
              · exact absurd hr6x hr6
        · rename_i hone1
          simp only [Option.pure_def, Option.some.injEq] at hs1
          subst hs1
          rw [offersTo_nil]
          constructor
          · exact False.elim
          · rintro (⟨h1, h2, he⟩ | ⟨h1, h2, he, h4, h5⟩) <;> exact absurd he hone1
      have L2 : ∀ er ec : Int, offersTo moves2 er ec ↔
          (offersTo moves1 er ec ∨
            (er = r - 1 ∧ ec = c - 1 ∧ 0 ≤ c - 1 ∧
              ∃ dl, getCell s.board (r - 1) (c - 1) = some dl ∧ dl.1 = 'b')) := by
        intro er ec
        split at hs2
        · rename_i hcge
          obtain ⟨dl, hdl, hs2⟩ := obind_eq_some hs2
          split at hs2
          · rename_i hdlb
            obtain ⟨m3, hmk3, hs2⟩ := obind_eq_some hs2
            obtain ⟨f1, f2, f3, f4⟩ := mkMove_fields hmk3
            simp only [Option.pure_def, Option.some.injEq] at hs2
            subst hs2
            rw [offersTo_append, offersTo_single, f3, f4]
            constructor
            · rintro (hm | ⟨h1, h2⟩)
              · exact Or.inl hm
              · exact Or.inr ⟨h1.symm, h2.symm, hcge, dl, hdl, hdlb⟩
            · rintro (hm | ⟨h1, h2, h3, dlx, hdlx, hbx⟩)
              · exact Or.inl hm
              · exact Or.inr ⟨h1.symm, h2.symm⟩
          · rename_i hdlb
            simp only [Option.pure_def, Option.some.injEq] at hs2
            subst hs2
            constructor
            · exact Or.inl
            · rintro (hm | ⟨h1, h2, h3, dlx, hdlx, hbx⟩)
              · exact hm
              · have hdd := Option.some.inj (hdl.symm.trans hdlx)
                subst hdd
                exact absurd hbx hdlb
        · rename_i hcge
          simp only [Option.pure_def, Option.some.injEq] at hs2
          subst hs2
          constructor
          · exact Or.inl
          · rintro (hm | ⟨h1, h2, hge, h4⟩)
            · exact hm
            · exact absurd hge hcge
      have L3 : ∀ er ec : Int, offersTo out er ec ↔
          (offersTo moves2 er ec ∨
            (er = r - 1 ∧ ec = c + 1 ∧ c + 1 ≤ 7 ∧
              ∃ dr, getCell s.board (r - 1) (c + 1) = some dr ∧ dr.1 = 'b')) := by
        intro er ec
        split at hout
        · rename_i hcle
          obtain ⟨dr, hdr, hout⟩ := obind_eq_some hout
          split at hout
          · rename_i hdrb
            obtain ⟨m4, hmk4, hout⟩ := obind_eq_some hout
            obtain ⟨f1, f2, f3, f4⟩ := mkMove_fields hmk4
            simp only [Option.pure_def, Option.some.injEq] at hout
            subst hout
            rw [offersTo_append, offersTo_single, f3, f4]
            constructor
            · rintro (hm | ⟨h1, h2⟩)
              · exact Or.inl hm
              · exact Or.inr ⟨h1.symm, h2.symm, hcle, dr, hdr, hdrb⟩
            · rintro (hm | ⟨h1, h2, h3, drx, hdrx, hbx⟩)
              · exact Or.inl hm
              · exact Or.inr ⟨h1.symm, h2.symm⟩
          · rename_i hdrb
            simp only [Option.pure_def, Option.some.injEq] at hout
            subst hout
            constructor
            · exact Or.inl
            · rintro (hm | ⟨h1, h2, h3, drx, hdrx, hbx⟩)
              · exact hm
              · have hdd := Option.some.inj (hdr.symm.trans hdrx)
                subst hdd
                exact absurd hbx hdrb
        · rename_i hcle
          simp only [Option.pure_def, Option.some.injEq] at hout
          subst hout
          constructor
          · exact Or.inl
          · rintro (hm | ⟨h1, h2, hle, h4⟩)
            · exact hm
            · exact absurd hle hcle
      refine ⟨?_, ?_⟩
      · rw [L3, L2, L1]
        constructor
        · rintro (((⟨h1, h2, h3⟩ | ⟨h1, h2, hone1, hr6, htwoc⟩) | ⟨h1, h2, h3⟩)
            | ⟨h1, h2, h3⟩)
          · omega
          · exact ⟨hr6, by rw [hone, hone1], htwoc⟩
          · omega
          · omega
        · rintro ⟨hr6, hcell1, hcell2⟩
          refine Or.inl (Or.inl (Or.inr ⟨rfl, rfl, ?_, hr6, hcell2⟩))
          rw [hone] at hcell1
          exact Option.some.inj hcell1
      · intro dc hdc
        rcases hdc with rfl | rfl
        · rw [L3, L2, L1]
          constructor
          · rintro (((⟨h1, h2, h3⟩ | ⟨h1, h2, h3⟩) | ⟨h1, h2, hge, dl, hdl, hb⟩)
              | ⟨h1, h2, h3⟩)
            · omega
            · omega
            · refine ⟨⟨by omega, by omega, by omega, by omega⟩, dl, ?_, hb⟩
              rw [show c + (-1 : Int) = c - 1 from by omega]
              exact hdl
            · omega
          · rintro ⟨⟨hb1, hb2, hb3, hb4⟩, w, hw, hwb⟩
            refine Or.inl (Or.inr ⟨rfl, by omega, by omega, w, ?_, hwb⟩)
            rw [show c - 1 = c + (-1 : Int) from by omega]
            exact hw
        · rw [L3, L2, L1]
          constructor
          · rintro (((⟨h1, h2, h3⟩ | ⟨h1, h2, h3⟩) | ⟨h1, h2, h3⟩)
              | ⟨h1, h2, hle, dr, hdr, hb⟩)
            · omega
            · omega
            · omega
            · exact ⟨⟨by omega, by omega, by omega, by omega⟩, dr, hdr, hb⟩
          · rintro ⟨⟨hb1, hb2, hb3, hb4⟩, w, hw, hwb⟩
            exact Or.inr ⟨rfl, rfl, by omega, w, hw, hwb⟩
  · intro hw hr0 hrb out hout
    unfold getPawnmoves at hout
    split at hout
    case isTrue hwt =>
      rw [hw] at hwt
      exact Bool.noConfusion hwt
    case isFalse hwf =>
      obtain ⟨one, hone, hout⟩ := obind_eq_some hout
      obtain ⟨moves1, hs1, hout⟩ := obind_eq_some hout
      obtain ⟨moves2, hs2, hout⟩ := obind_eq_some hout
      have L1 : ∀ er ec : Int, offersTo moves1 er ec ↔
          ((er = r + 1 ∧ ec = c ∧ one = emptyCell) ∨
           (er = r + 2 ∧ ec = c ∧ one = emptyCell ∧ r = 1 ∧
             getCell s.board (r + 2) c = some emptyCell)) := by
        intro er ec
        split at hs1
        · rename_i hone1
          obtain ⟨m1, hmk1, hs1⟩ := obind_eq_some hs1
          obtain ⟨f1, f2, f3, f4⟩ := mkMove_fields hmk1
          split at hs1
          · rename_i hb6
            obtain ⟨two, htwo, hs1⟩ := obind_eq_some hs1
            split at hs1
            · rename_i htwo1
              obtain ⟨m2, hmk2, hs1⟩ := obind_eq_some hs1
              obtain ⟨g1, g2, g3, g4⟩ := mkMove_fields hmk2
              simp only [Option.pure_def, Option.some.injEq] at hs1
              subst hs1
              rw [htwo1] at htwo
              rw [offersTo_append, offersTo_append, offersTo_nil,
                offersTo_single, offersTo_single, f3, f4, g3, g4]
              constructor
              · rintro ((hF | ⟨h1, h2⟩) | ⟨h1, h2⟩)
                · exact hF.elim
                · exact Or.inl ⟨h1.symm, h2.symm, hone1⟩
                · exact Or.inr ⟨h1.symm, h2.symm, hone1, hb6, htwo⟩
              · rintro (⟨h1, h2, h3⟩ | ⟨h1, h2, h3, h4, h5⟩)
                · exact Or.inl (Or.inr ⟨h1.symm, h2.symm⟩)
                · exact Or.inr ⟨h1.symm, h2.symm⟩
            · rename_i htwo1
              simp only [Option.pure_def, Option.some.injEq] at hs1
              subst hs1
              rw [offersTo_append, offersTo_nil, offersTo_single, f3, f4]
              constructor
              · rintro (hF | ⟨h1, h2⟩)
                · exact hF.elim
                · exact Or.inl ⟨h1.symm, h2.symm, hone1⟩
              · rintro (⟨h1, h2, h3⟩ | ⟨h1, h2, h3, h4, hcell⟩)
                · exact Or.inr ⟨h1.symm, h2.symm⟩
                · rw [htwo] at hcell
                  exact absurd (Option.some.inj hcell) htwo1
          · rename_i hb6
            simp only [Option.pure_def, Option.some.injEq] at hs1
            subst hs1
            rw [offersTo_append, offersTo_nil, offersTo_single, f3, f4]
            constructor
            · rintro (hF | ⟨h1, h2⟩)
              · exact hF.elim
              · exact Or.inl ⟨h1.symm, h2.symm, hone1⟩
            · rintro (⟨h1, h2, h3⟩ | ⟨h1, h2, h3, hb6x, h5⟩)
              · exact Or.inr ⟨h1.symm, h2.symm⟩
              · exact absurd hb6x hb6
        · rename_i hone1
          simp only [Option.pure_def, Option.some.injEq] at hs1
          subst hs1
          rw [offersTo_nil]
          constructor
          · exact False.elim
          · rintro (⟨h1, h2, he⟩ | ⟨h1, h2, he, h4, h5⟩) <;> exact absurd he hone1
      have L2 : ∀ er ec : Int, offersTo moves2 er ec ↔
          (offersTo moves1 er ec ∨
            (er = r + 1 ∧ ec = c - 1 ∧ 0 ≤ c - 1 ∧
              ∃ dl, getCell s.board (r + 1) (c - 1) = some dl ∧ dl.1 = 'w')) := by
        intro er ec
        split at hs2
        · rename_i hcge
          obtain ⟨dl, hdl, hs2⟩ := obind_eq_some hs2
          split at hs2
          · rename_i hdlb
            obtain ⟨m3, hmk3, hs2⟩ := obind_eq_some hs2
            obtain ⟨f1, f2, f3, f4⟩ := mkMove_fields hmk3
            simp only [Option.pure_def, Option.some.injEq] at hs2
            subst hs2
            rw [offersTo_append, offersTo_single, f3, f4]
            constructor
            · rintro (hm | ⟨h1, h2⟩)
              · exact Or.inl hm
              · exact Or.inr ⟨h1.symm, h2.symm, hcge, dl, hdl, hdlb⟩
            · rintro (hm | ⟨h1, h2, h3, dlx, hdlx, hbx⟩)
              · exact Or.inl hm
              · exact Or.inr ⟨h1.symm, h2.symm⟩
          · rename_i hdlb
            simp only [Option.pure_def, Option.some.injEq] at hs2
            subst hs2
            constructor
            · exact Or.inl
            · rintro (hm | ⟨h1, h2, h3, dlx, hdlx, hbx⟩)
              · exact hm
              · have hdd := Option.some.inj (hdl.symm.trans hdlx)
                subst hdd
                exact absurd hbx hdlb
        · rename_i hcge
          simp only [Option.pure_def, Option.some.injEq] at hs2
          subst hs2
          constructor
          · exact Or.inl
          · rintro (hm | ⟨h1, h2, hge, h4⟩)
            · exact hm
            · exact absurd hge hcge
      have L3 : ∀ er ec : Int, offersTo out er ec ↔
          (offersTo moves2 er ec ∨
            (er = r + 1 ∧ ec = c + 1 ∧ c + 1 ≤ 7 ∧
              ∃ dr, getCell s.board (r + 1) (c + 1) = some dr ∧ dr.1 = 'w')) := by
        intro er ec
        split at hout
        · rename_i hcle
          obtain ⟨dr, hdr, hout⟩ := obind_eq_some hout
          split at hout
          · rename_i hdrb
            obtain ⟨m4, hmk4, hout⟩ := obind_eq_some hout
            obtain ⟨f1, f2, f3, f4⟩ := mkMove_fields hmk4
            simp only [Option.pure_def, Option.some.injEq] at hout
            subst hout
            rw [offersTo_append, offersTo_single, f3, f4]
            constructor
            · rintro (hm | ⟨h1, h2⟩)
              · exact Or.inl hm
              · exact Or.inr ⟨h1.symm, h2.symm, hcle, dr, hdr, hdrb⟩
            · rintro (hm | ⟨h1, h2, h3, drx, hdrx, hbx⟩)
              · exact Or.inl hm
              · exact Or.inr ⟨h1.symm, h2.symm⟩
          · rename_i hdrb
            simp only [Option.pure_def, Option.some.injEq] at hout
            subst hout
            constructor
            · exact Or.inl
            · rintro (hm | ⟨h1, h2, h3, drx, hdrx, hbx⟩)
              · exact hm
              · have hdd := Option.some.inj (hdr.symm.trans hdrx)
                subst hdd
                exact absurd hbx hdrb
        · rename_i hcle
          simp only [Option.pure_def, Option.some.injEq] at hout
          subst hout
          constructor
          · exact Or.inl
          · rintro (hm | ⟨h1, h2, hle, h4⟩)
            · exact hm
            · exact absurd hle hcle
      refine ⟨?_, ?_⟩
      · rw [L3, L2, L1]
        constructor
        · rintro (((⟨h1, h2, h3⟩ | ⟨h1, h2, hone1, hb6, htwoc⟩) | ⟨h1, h2, h3⟩)
            | ⟨h1, h2, h3⟩)
          · omega
          · exact ⟨hb6, by rw [hone, hone1], htwoc⟩
          · omega
          · omega
        · rintro ⟨hb6, hcell1, hcell2⟩
          refine Or.inl (Or.inl (Or.inr ⟨rfl, rfl, ?_, hb6, hcell2⟩))
          rw [hone] at hcell1
          exact Option.some.inj hcell1
      · intro dc hdc
        rcases hdc with rfl | rfl
        · rw [L3, L2, L1]
          constructor
          · rintro (((⟨h1, h2, h3⟩ | ⟨h1, h2, h3⟩) | ⟨h1, h2, hge, dl, hdl, hb⟩)
              | ⟨h1, h2, h3⟩)
            · omega
            · omega
            · refine ⟨⟨by omega, by omega, by omega, by omega⟩, dl, ?_, hb⟩
              rw [show c + (-1 : Int) = c - 1 from by omega]
              exact hdl
            · omega
          · rintro ⟨⟨hb1, hb2, hb3, hb4⟩, w, hw, hwb⟩
            refine Or.inl (Or.inr ⟨rfl, by omega, by omega, w, ?_, hwb⟩)
            rw [show c - 1 = c + (-1 : Int) from by omega]
            exact hw
        · rw [L3, L2, L1]
          constructor
          · rintro (((⟨h1, h2, h3⟩ | ⟨h1, h2, h3⟩) | ⟨h1, h2, h3⟩)
              | ⟨h1, h2, hle, dr, hdr, hb⟩)
            · omega
            · omega
            · omega
            · exact ⟨⟨by omega, by omega, by omega, by omega⟩, dr, hdr, hb⟩
          · rintro ⟨⟨hb1, hb2, hb3, hb4⟩, w, hw, hwb⟩
            exact Or.inr ⟨rfl, rfl, by omega, w, hw, hwb⟩

/-- Witness for the amended C7 at a concrete input: the e2 pawn of the
starting position. -/
theorem claim_C7_witness :
    WF newGame.board ∧ (0 : Int) ≤ 4 ∧ (4 : Int) ≤ 7 ∧
    ((newGame.whiteToMove = true → (1 : Int) ≤ 6 → (6 : Int) ≤ 7 →
      ∀ out, getPawnmoves newGame 6 4 [] = some out →
        ((offersTo out (6 - 2) 4 ↔
           ((6 : Int) = 6 ∧ getCell newGame.board (6 - 1) 4 = some emptyCell ∧
             getCell newGame.board (6 - 2) 4 = some emptyCell)) ∧
         (∀ dc : Int, dc = -1 ∨ dc = 1 →
           (offersTo out (6 - 1) (4 + dc) ↔
             enemyTargetCell newGame.board (6 - 1) (4 + dc) 'b')))) ∧
     (newGame.whiteToMove = false → (0 : Int) ≤ 6 → (6 : Int) ≤ 6 →
      ∀ out, getPawnmoves newGame 6 4 [] = some out →
        ((offersTo out (6 + 2) 4 ↔
           ((6 : Int) = 1 ∧ getCell newGame.board (6 + 1) 4 = some emptyCell ∧
             getCell newGame.board (6 + 2) 4 = some emptyCell)) ∧
         (∀ dc : Int, dc = -1 ∨ dc = 1 →
           (offersTo out (6 + 1) (4 + dc) ↔
             enemyTargetCell newGame.board (6 + 1) (4 + dc) 'w'))))) :=
  ⟨⟨by decide, by decide⟩, by decide, by decide,
   claim_C7_pawn_move_conditions newGame 6 4 ⟨by decide, by decide⟩
     (by decide) (by decide)⟩


/-! Ray characterization of the sliding-piece generators. -/

theorem ray_escape {r c d1 d2 a k : Int}
    (hd1 : d1 = -1 ∨ d1 = 0 ∨ d1 = 1) (hd2 : d2 = -1 ∨ d2 = 0 ∨ d2 = 1)
    (hr0 : 0 ≤ r) (hr8 : r < 8) (hc0 : 0 ≤ c) (hc8 : c < 8)
    (ha : 1 ≤ a) (hak : a ≤ k)
    (hnot : ¬ (0 ≤ r + d1 * a ∧ r + d1 * a < 8 ∧ 0 ≤ c + d2 * a ∧ c + d2 * a < 8))
    (hin : inBoard (r + d1 * k) (c + d2 * k)) : False := by
  unfold inBoard at hin
  rcases hd1 with rfl | rfl | rfl <;> rcases hd2 with rfl | rfl | rfl <;> omega

theorem slideLoop_acc {bd : Board} {e : Char} {r c : Int} {d : Int × Int} :
    ∀ (steps : List Int) (acc : List Move),
      slideLoop bd e r c d steps acc =
        (slideLoop bd e r c d steps []).map (acc ++ ·) := by
  intro steps
  induction steps with
  | nil => intro acc; simp [slideLoop]
  | cons i rest ih =>
    intro acc
    simp only [slideLoop]
    split
    · cases hep : getCell bd (r + d.1 * i) (c + d.2 * i) with
      | none => rfl
      | some ep =>
        simp only [obind_pure]
        split
        · cases hmk : mkMove (r, c) (r + d.1 * i, c + d.2 * i) bd with
          | none => rfl
          | some m =>
            simp only [obind_pure]
            rw [ih (acc ++ [m]), ih ([] ++ [m])]
            cases slideLoop bd e r c d rest [] <;>
              simp [List.append_assoc]
        · split
          · cases hmk : mkMove (r, c) (r + d.1 * i, c + d.2 * i) bd with
            | none => rfl
            | some m => simp
          · simp
    · simp

theorem slideLoop_spec {bd : Board} {e : Char} {r c d1 d2 : Int}
    (hWF : WF bd)
    (hd1 : d1 = -1 ∨ d1 = 0 ∨ d1 = 1) (hd2 : d2 = -1 ∨ d2 = 0 ∨ d2 = 1)
    (hr0 : 0 ≤ r) (hr8 : r < 8) (hc0 : 0 ≤ c) (hc8 : c < 8) :
    ∀ (n : Nat) (a : Int) (out : List Move), 1 ≤ a →
      slideLoop bd e r c (d1, d2) (stepsList a n) [] = some out →
      ((∀ m ∈ out, ∃ k : Int, a ≤ k ∧ k < a + n ∧
          m.endRow = r + d1 * k ∧ m.endCol = c + d2 * k ∧
          inBoard (r + d1 * k) (c + d2 * k) ∧
          (∀ j : Int, a ≤ j → j < k →
            getCell bd (r + d1 * j) (c + d2 * j) = some emptyCell) ∧
          (getCell bd (r + d1 * k) (c + d2 * k) = some emptyCell ∨
            ∃ w, getCell bd (r + d1 * k) (c + d2 * k) = some w ∧ w.1 = e)) ∧
       (∀ k : Int, a ≤ k → k < a + n → inBoard (r + d1 * k) (c + d2 * k) →
          (∀ j : Int, a ≤ j → j < k →
            getCell bd (r + d1 * j) (c + d2 * j) = some emptyCell) →
          ∀ w, getCell bd (r + d1 * k) (c + d2 * k) = some w → w ≠ emptyCell →
            w.1 = e → offersTo out (r + d1 * k) (c + d2 * k))) := by
  intro n
  induction n with
  | zero =>
    intro a out ha h
    simp only [stepsList, slideLoop, Option.some.injEq] at h
    subst h
    constructor
    · intro m hm
      exact absurd hm (List.not_mem_nil m)
    · intro k hk1 hk2
      exact absurd hk2 (by omega)
  | succ n ih =>
    intro a out ha h
    simp only [stepsList, slideLoop] at h
    split at h
    case isTrue hguard =>
      obtain ⟨ep, hep, h⟩ := obind_eq_some h
      split at h
      case isTrue hepe =>
        obtain ⟨m1, hmk1, h⟩ := obind_eq_some h
        obtain ⟨f1, f2, f3, f4⟩ := mkMove_fields hmk1
        rw [slideLoop_acc] at h
        cases hrec : slideLoop bd e r c (d1, d2) (stepsList (a + 1) n) [] with
        | none => rw [hrec] at h; exact Option.noConfusion h
        | some rest_out =>
          rw [hrec] at h
          have h' : some ((([] : List Move) ++ [m1]) ++ rest_out) = some out := h
          have hout := Option.some.inj h'
          simp only [List.nil_append, List.singleton_append] at hout
          subst hout
          obtain ⟨IH1, IH2⟩ := ih (a + 1) rest_out (by omega) hrec
          subst hepe
          constructor
          · intro m hm
            rcases List.mem_cons.mp hm with rfl | hm
            · refine ⟨a, le_refl a, by omega, f3, f4, hguard, ?_, Or.inl hep⟩
              intro j hj1 hj2
              exact absurd hj2 (by omega)
            · obtain ⟨k, hk1, hk2, g3, g4, gin, gmid, gend⟩ := IH1 m hm
              refine ⟨k, by omega, by omega, g3, g4, gin, ?_, gend⟩
              intro j hj1 hj2
              rcases eq_or_lt_of_le hj1 with rfl | hlt
              · exact hep
              · exact gmid j (by omega) hj2
          · intro k hk1 hk2 hin hmid w hw hne hcol
            rcases eq_or_lt_of_le hk1 with rfl | hlt
            · rw [hep] at hw
              exact absurd (Option.some.inj hw).symm hne
            · obtain ⟨m, hm, hmm⟩ := IH2 k (by omega) (by omega) hin
                (fun j hj1 hj2 => hmid j (by omega) hj2) w hw hne hcol
              exact ⟨m, List.mem_cons_of_mem m1 hm, hmm⟩
      case isFalse hepne =>
        split at h
        case isTrue hcol1 =>
          obtain ⟨m1, hmk1, h⟩ := obind_eq_some h
          obtain ⟨f1, f2, f3, f4⟩ := mkMove_fields hmk1
          simp only [Option.pure_def, Option.some.injEq, List.nil_append] at h
          subst h
          constructor
          · intro m hm
            rw [List.mem_singleton] at hm
            subst hm
            refine ⟨a, le_refl a, by omega, f3, f4, hguard, ?_,
              Or.inr ⟨ep, hep, hcol1⟩⟩
            intro j hj1 hj2
            exact absurd hj2 (by omega)
          · intro k hk1 hk2 hin hmid w hw hne hcol
            rcases eq_or_lt_of_le hk1 with rfl | hlt
            · exact ⟨m1, List.mem_singleton_self m1, f3, f4⟩
            · have hja := hmid a (le_refl a) hlt
              rw [hep] at hja
              exact absurd (Option.some.inj hja) hepne
        case isFalse hcol1 =>
          simp only [Option.pure_def, Option.some.injEq] at h
          subst h
          constructor
          · intro m hm
            exact absurd hm (List.not_mem_nil m)
          · intro k hk1 hk2 hin hmid w hw hne hcol
            rcases eq_or_lt_of_le hk1 with rfl | hlt
            · rw [hep] at hw
              have hew := Option.some.inj hw
              subst hew
              exact absurd hcol hcol1
            · have hja := hmid a (le_refl a) hlt
              rw [hep] at hja
              exact absurd (Option.some.inj hja) hepne
    case isFalse hguard =>
      simp only [Option.pure_def, Option.some.injEq] at h
      subst h
      constructor
      · intro m hm
        exact absurd hm (List.not_mem_nil m)
      · intro k hk1 hk2 hin hmid w hw hne hcol
        exact (ray_escape hd1 hd2 hr0 hr8 hc0 hc8 ha hk1 hguard hin).elim

theorem slideDirs_acc {bd : Board} {e : Char} {r c : Int} :
    ∀ (dirs : List (Int × Int)) (acc : List Move),
      slideDirs bd e r c dirs acc =
        (slideDirs bd e r c dirs []).map (acc ++ ·) := by
  intro dirs
  induction dirs with
  | nil => intro acc; simp [slideDirs]
  | cons d ds ih =>
    intro acc
    simp only [slideDirs]
    rw [slideLoop_acc]
    cases hx : slideLoop bd e r c d [1, 2, 3, 4, 5, 6, 7] [] with
    | none => simp
    | some l1 =>
      simp only [Option.map_some', obind_pure, List.nil_append]
      rw [ih (acc ++ l1), ih l1]
      cases slideDirs bd e r c ds [] <;> simp [List.append_assoc]

theorem rayGenSpec_append {bd : Board} {e : Char} {r c : Int}
    {dirs1 dirs2 : List (Int × Int)} {out1 out2 : List Move}
    (h1 : rayGenSpec bd e r c dirs1 out1) (h2 : rayGenSpec bd e r c dirs2 out2) :
    rayGenSpec bd e r c (dirs1 ++ dirs2) (out1 ++ out2) := by
  obtain ⟨A1, A2⟩ := h1
  obtain ⟨B1, B2⟩ := h2
  constructor
  · intro m hm
    rcases List.mem_append.mp hm with hm | hm
    · obtain ⟨d, hd, rest⟩ := A1 m hm
      exact ⟨d, List.mem_append.mpr (Or.inl hd), rest⟩
    · obtain ⟨d, hd, rest⟩ := B1 m hm
      exact ⟨d, List.mem_append.mpr (Or.inr hd), rest⟩
  · intro d hd k hk1 hk2 hin hmid w hw hne hcol
    rcases List.mem_append.mp hd with hd | hd
    · obtain ⟨m, hm, hmm⟩ := A2 d hd k hk1 hk2 hin hmid w hw hne hcol
      exact ⟨m, List.mem_append.mpr (Or.inl hm), hmm⟩
    · obtain ⟨m, hm, hmm⟩ := B2 d hd k hk1 hk2 hin hmid w hw hne hcol
      exact ⟨m, List.mem_append.mpr (Or.inr hm), hmm⟩

theorem slideDirs_spec {bd : Board} {e : Char} {r c : Int}
    (hWF : WF bd) (hr0 : 0 ≤ r) (hr8 : r < 8) (hc0 : 0 ≤ c) (hc8 : c < 8) :
    ∀ (dirs : List (Int × Int)),
      (∀ d ∈ dirs, (d.1 = -1 ∨ d.1 = 0 ∨ d.1 = 1) ∧
        (d.2 = -1 ∨ d.2 = 0 ∨ d.2 = 1)) →
      ∀ out, slideDirs bd e r c dirs [] = some out →
      rayGenSpec bd e r c dirs out := by
  intro dirs
  induction dirs with
  | nil =>
    intro hd out h
    simp only [slideDirs, Option.some.injEq] at h
    subst h
    constructor
    · intro m hm
      exact absurd hm (List.not_mem_nil m)
    · intro d hd'
      exact absurd hd' (List.not_mem_nil d)
  | cons d ds ih =>
    intro hd out h
    simp only [slideDirs] at h
    obtain ⟨l1, hl1, h⟩ := obind_eq_some h
    rw [slideDirs_acc] at h
    cases hrec : slideDirs bd e r c ds [] with
    | none => rw [hrec] at h; exact Option.noConfusion h
    | some l2 =>
      rw [hrec] at h
      have h' : some (l1 ++ l2) = some out := h
      have hout := Option.some.inj h'
      subst hout
      obtain ⟨hda, hdb⟩ := hd d (List.mem_cons_self d ds)
      obtain ⟨dd1, dd2⟩ := d
      have hl1' : slideLoop bd e r c (dd1, dd2) (stepsList 1 7) [] = some l1 := by
        rw [show stepsList 1 7 = ([1, 2, 3, 4, 5, 6, 7] : List Int) from rfl]
        exact hl1
      obtain ⟨S1, S2⟩ :=
        slideLoop_spec hWF hda hdb hr0 hr8 hc0 hc8 7 1 l1 (by omega) hl1'
      obtain ⟨T1, T2⟩ :=
        ih (fun d' hd' => hd d' (List.mem_cons_of_mem _ hd')) l2 hrec
      constructor
      · intro m hm
        rcases List.mem_append.mp hm with hm | hm
        · obtain ⟨k, hk1, hk2, e3, e4, e5, e6, e7⟩ := S1 m hm
          exact ⟨(dd1, dd2), List.mem_cons_self _ _, k, hk1, by omega,
            e3, e4, e5, e6, e7⟩
        · obtain ⟨d', hd', rest⟩ := T1 m hm
          exact ⟨d', List.mem_cons_of_mem _ hd', rest⟩
      · intro d' hd' k hk1 hk2 hin hmid w hw hne hcol
        rcases List.mem_cons.mp hd' with rfl | hd'
        · obtain ⟨m, hm, hmm⟩ := S2 k hk1 (by omega) hin hmid w hw hne hcol
          exact ⟨m, List.mem_append.mpr (Or.inl hm), hmm⟩
        · obtain ⟨m, hm, hmm⟩ := T2 d' hd' k hk1 hk2 hin hmid w hw hne hcol
          exact ⟨m, List.mem_append.mpr (Or.inr hm), hmm⟩

/-- C8.  The sliding-piece generators respect the ray contract: for a
well-shaped board and an on-board origin, every rook, bishop, or queen move
generated from an empty accumulator lies on one of the piece's rays at a
step all of whose earlier steps are empty cells — so no destination is ever
beyond the first occupied square of a ray — and its own cell is empty or of
the enemy color; conversely the first occupied square of a ray, when
enemy-colored, is generated. -/
theorem claim_C8_sliding_ray_contract (s : GameState) (r c : Int)
    (hWF : WF s.board) (hr0 : 0 ≤ r) (hr8 : r < 8) (hc0 : 0 ≤ c) (hc8 : c < 8) :
    (∀ out, getRookmoves s r c [] = some out →
      rayGenSpec s.board (if s.whiteToMove then 'b' else 'w') r c
        [(-1, 0), (0, -1), (1, 0), (0, 1)] out) ∧
    (∀ out, getBishopmoves s r c [] = some out →
      rayGenSpec s.board (if s.whiteToMove then 'b' else 'w') r c
        [(-1, -1), (-1, 1), (1, -1), (1, 1)] out) ∧
    (∀ out, getQueenmoves s r c [] = some out →
      rayGenSpec s.board (if s.whiteToMove then 'b' else 'w') r c
        [(-1, 0), (0, -1), (1, 0), (0, 1), (-1, -1), (-1, 1), (1, -1), (1, 1)]
        out) := by
  refine ⟨?_, ?_, ?_⟩
  · intro out h
    exact slideDirs_spec hWF hr0 hr8 hc0 hc8 _ (by decide) out h
  · intro out h
    exact slideDirs_spec hWF hr0 hr8 hc0 hc8 _ (by decide) out h
  · intro out h
    unfold getQueenmoves at h
    obtain ⟨l1, h1, h2⟩ := obind_eq_some h
    have h2' : slideDirs s.board (if s.whiteToMove then 'b' else 'w') r c
        [(-1, -1), (-1, 1), (1, -1), (1, 1)] l1 = some out := h2
    rw [slideDirs_acc] at h2'
    cases hrec : slideDirs s.board (if s.whiteToMove then 'b' else 'w') r c
        [(-1, -1), (-1, 1), (1, -1), (1, 1)] [] with
    | none => rw [hrec] at h2'; exact Option.noConfusion h2'
    | some l2 =>
      rw [hrec] at h2'
      have h'' : some (l1 ++ l2) = some out := h2'
      have hout := Option.some.inj h''
      subst hout
      exact rayGenSpec_append
        (slideDirs_spec hWF hr0 hr8 hc0 hc8 _ (by decide) l1 h1)
        (slideDirs_spec hWF hr0 hr8 hc0 hc8 _ (by decide) l2 hrec)

/-- Witness for C8 at a concrete input: the a1 rook square of the starting
position. -/
theorem claim_C8_witness :
    WF newGame.board ∧ (0 : Int) ≤ 7 ∧ (7 : Int) < 8 ∧
    (0 : Int) ≤ 0 ∧ (0 : Int) < 8 ∧
    ((∀ out, getRookmoves newGame 7 0 [] = some out →
      rayGenSpec newGame.board (if newGame.whiteToMove then 'b' else 'w') 7 0
        [(-1, 0), (0, -1), (1, 0), (0, 1)] out) ∧
     (∀ out, getBishopmoves newGame 7 0 [] = some out →
      rayGenSpec newGame.board (if newGame.whiteToMove then 'b' else 'w') 7 0
        [(-1, -1), (-1, 1), (1, -1), (1, 1)] out) ∧
     (∀ out, getQueenmoves newGame 7 0 [] = some out →
      rayGenSpec newGame.board (if newGame.whiteToMove then 'b' else 'w') 7 0
        [(-1, 0), (0, -1), (1, 0), (0, 1), (-1, -1), (-1, 1), (1, -1), (1, 1)]
        out)) :=
  ⟨⟨by decide, by decide⟩, by decide, by decide, by decide, by decide,
   claim_C8_sliding_ray_contract newGame 7 0 ⟨by decide, by decide⟩
     (by decide) (by decide) (by decide) (by decide)⟩

end ChessEngine
